import Mathlib

/-!
Verification of the core of the `go-db-engine` LSM key-value store.

The Go sources are embedded shallowly: byte slices become `List Nat`
(each entry a byte value), Go strings become `String` (compared
lexicographically on UTF-8 bytes; Lean's `String` order on code points
coincides with byte-wise order of the UTF-8 encoding), machine integers
become `Nat` with explicit `% 2^32` where `uint32` overflow matters, and
fallible operations return `Except`/`Option` or an explicit error
component.  Functions keep the source names where the environment allows
it; comments note the Go original otherwise.
-/

deriving instance DecidableEq for Except

namespace DbEngine

/-- A byte, modelled as a natural number (meaningful values are below 256). -/
abbrev Byte := Nat

/-! ## Varint encoding (Go `encoding/binary`)

`binary.PutUvarint` and `binary.ReadUvarint` on unsigned LEB128,
at most 10 bytes for a 64-bit value (`binary.MaxVarintLen64 = 10`). -/

/-- Loop of Go `binary.PutUvarint`: emit continuation bytes while `x ≥ 0x80`.
The fuel is the loop bound `MaxVarintLen64 = 10`, which covers every
`uint64` value exactly as the Go code does. -/
def putUvarintLoop : Nat → Nat → List Byte
  | 0, x => [x]
  | fuel + 1, x =>
    if x < 0x80 then [x]
    else (x % 0x80 + 0x80) :: putUvarintLoop fuel (x / 0x80)

/-- Embeds Go `binary.PutUvarint`: the little-endian base-128 bytes of `x`,
continuation bit `0x80` on every byte except the last. -/
def putUvarint (x : Nat) : List Byte :=
  putUvarintLoop 9 x

/-- A fixed 10-byte size slot (`binary.MaxVarintLen64`): `PutUvarint` into a
zeroed 10-byte buffer, as the SSTable data-size header does. -/
def putUvarintFixed10 (x : Nat) : List Byte :=
  putUvarint x ++ List.replicate (10 - (putUvarint x).length) 0

/-- Errors surfaced by the byte-level readers. -/
inductive ByteErr where
  | eof
  | overflow
deriving DecidableEq, Repr

/-- Loop of Go `binary.ReadUvarint`; `fuel` counts the remaining iterations of
the 10-iteration loop, `x` and `s` are the accumulator and shift. Returns the
decoded value and the unread remainder of the source. -/
def readUvarintLoop : Nat → Nat → Nat → List Byte → Except ByteErr (Nat × List Byte)
  | 0, _, _, _ => .error .overflow
  | fuel + 1, x, s, src =>
    match src with
    | [] => .error .eof
    | b :: rest =>
      if b < 0x80 then
        if fuel = 0 ∧ b > 1 then .error .overflow
        else .ok (x ||| (b <<< s), rest)
      else readUvarintLoop fuel (x ||| ((b &&& 0x7f) <<< s)) (s + 7) rest

/-- Embeds Go `binary.ReadUvarint` over an in-memory byte source. -/
def readUvarint (src : List Byte) : Except ByteErr (Nat × List Byte) :=
  readUvarintLoop 10 0 0 src

/-! ## The framing utility (Go file with `WriteDataWithVarintSizePrefix` /
`ReadDataWithVarintPrefix`) -/

/-- Model of the writable file handle (`WalFile` / the raw `io.Writer`):
`contents` are the bytes on disk; `quota`, when present, is the number of
further bytes the device accepts before failing (this models the test
double `BadTruncateWriter` as well as a full device — `none` means writes
always succeed); `truncateFails` says whether `Truncate` calls fail. -/
structure WFile where
  contents : List Byte
  quota : Option Nat
  truncateFails : Bool
deriving DecidableEq, Repr

/-- One `Write` call: appends as many bytes as the device accepts and
reports the count written plus whether an error occurred (Go returns
`(n, err)`; a short write comes with an error). -/
def WFile.write (f : WFile) (p : List Byte) : WFile × Nat × Bool :=
  match f.quota with
  | none => ({ f with contents := f.contents ++ p }, p.length, false)
  | some q =>
    if p.length ≤ q then
      ({ f with contents := f.contents ++ p, quota := some (q - p.length) }, p.length, false)
    else
      ({ f with contents := f.contents ++ p.take q, quota := some 0 }, q, true)

/-- `Truncate(size)`: keep the first `size` bytes. -/
def WFile.truncate (f : WFile) (size : Nat) : WFile × Bool :=
  if f.truncateFails then (f, true)
  else ({ f with contents := f.contents.take size }, false)

/-- `Stat().Size()` — the model's stat always succeeds. -/
def WFile.size (f : WFile) : Nat := f.contents.length

/-- Embeds Go `WriteDataWithVarintSizePrefix` (file `varint.go`): write the
varint of `raw`'s length, then `raw`; the returned count is the total number
of bytes written on either path. -/
def writeDataWithVarintSize (f : WFile) (raw : List Byte) : WFile × Nat × Bool :=
  let pre := putUvarint raw.length
  let r1 := f.write pre
  if r1.2.2 then (r1.1, r1.2.1, true)
  else
    let r2 := r1.1.write raw
    (r2.1, r1.2.1 + r2.2.1, r2.2.2)

/-- Embeds Go `ReadDataWithVarintPrefix` (file `varint.go`) over an in-memory
source.  Decodes a varint length `l`; reuses `reuse` when given and at least
`l` long, otherwise allocates `l` zero bytes; then performs a single `Read`
into the buffer, which fills `min (buffer length) (bytes available)` bytes —
the result of that `Read` (count and error) is ignored by the source, so the
whole buffer is returned as-is, zero-padded or with stale bytes beyond what
was read.  Also returns the unconsumed remainder of the source. -/
def readDataWithVarint (src : List Byte) (reuse : Option (List Byte)) :
    Except ByteErr (List Byte × List Byte) :=
  match readUvarint src with
  | .error e => .error e
  | .ok (l, rest) =>
    let buf := match reuse with
      | none => List.replicate l 0
      | some b => if b.length < l then List.replicate l 0 else b
    let n := min buf.length rest.length
    .ok (rest.take n ++ buf.drop n, rest.drop n)

/-! ## Go string comparison

Go compares strings as raw bytes.  Lexicographic comparison of code points
coincides with byte-wise lexicographic comparison of their UTF-8 encodings,
so we compare the code-point sequences. -/

/-- Lexicographic strict order on natural-number sequences. -/
def lexLt : List Nat → List Nat → Bool
  | [], [] => false
  | [], _ :: _ => true
  | _ :: _, [] => false
  | a :: as, b :: bs => if a < b then true else if b < a then false else lexLt as bs

/-- Go `x < y` on strings. -/
def strLt (x y : String) : Bool :=
  lexLt (x.data.map Char.toNat) (y.data.map Char.toNat)

/-- Go `x <= y` on strings (a total order: `x ≤ y ↔ ¬ y < x`). -/
def strLe (x y : String) : Bool :=
  !(strLt y x)

/-! ## Protocol-buffer wire format for the repository's `pb` package

Modelled from the spec: the repository's generated `pb` package is not under
`src/`; the spec describes its messages (`WalLog {seq: uint32, data: bytes}`,
`MemtableKeyValue {key, value}`, `SSTableBlock {data: repeated {key, value}}`,
`SSTableIndex {entries: repeated {start_key, end_key, offset, size}}`) as
length-delimited protobuf records.  We model standard proto3 encoding:
fields in declaration order, zero values omitted, strings/bytes
length-delimited, integers as varints. -/

/-- UTF-8 bytes of a character (standard encoding; Go `len(string)` and all
byte-level string handling use this). -/
def charUtf8 (c : Char) : List Byte :=
  let n := c.toNat
  if n < 0x80 then [n]
  else if n < 0x800 then [0xC0 ||| (n >>> 6), 0x80 ||| (n &&& 0x3F)]
  else if n < 0x10000 then
    [0xE0 ||| (n >>> 12), 0x80 ||| ((n >>> 6) &&& 0x3F), 0x80 ||| (n &&& 0x3F)]
  else
    [0xF0 ||| (n >>> 18), 0x80 ||| ((n >>> 12) &&& 0x3F),
     0x80 ||| ((n >>> 6) &&& 0x3F), 0x80 ||| (n &&& 0x3F)]

/-- UTF-8 bytes of a string; `(strBytes s).length` is Go's `len(s)`. -/
def strBytes (s : String) : List Byte :=
  s.data.flatMap charUtf8

/-- A length-delimited proto field: tag byte, varint length, payload. -/
def protoLenField (tag : Byte) (payload : List Byte) : List Byte :=
  if payload = [] then [] else tag :: putUvarint payload.length ++ payload

/-- A varint proto field (omitted when zero, as proto3 does). -/
def protoVarintField (tag : Byte) (x : Nat) : List Byte :=
  if x = 0 then [] else tag :: putUvarint x

/-- Modelled from the spec: serialization of `pb.WalLog {seq: uint32 = 1,
data: bytes = 2}` (the payload of one WAL record). -/
def marshalWalLog (seq : Nat) (data : List Byte) : List Byte :=
  protoVarintField 0x08 seq ++ protoLenField 0x12 data

/-- Modelled from the spec: serialization of `pb.MemtableKeyValue
{key: string = 1, value: bytes = 2}` (the memtable mutation recorded in the
WAL). -/
def marshalMemtableKeyValue (key : String) (value : List Byte) : List Byte :=
  protoLenField 0x0A (strBytes key) ++ protoLenField 0x12 value

/-! ## WAL (`wal.go`) -/

/-- The WAL operation codes (`OP_*` constants in `wal.go`). -/
inductive WalOp where
  | CREATE_FILE
  | READ_FILE
  | APPEND
  | ROLLBACK
  | DELETE
deriving DecidableEq, Repr

/-- Embeds `WalError` — the operation code and `BeforeLastSeq` (the
underlying cause is not modelled). -/
structure WalError where
  op : WalOp
  beforeLastSeq : Nat
deriving DecidableEq, Repr

/-- Embeds `BasicWal`: the open file and the sequence number of the latest
written log (`seq` is a `uint32`). -/
structure BasicWal where
  file : WFile
  seq : Nat
deriving DecidableEq, Repr

/-- `NewBasicWal` on a freshly created file: only `file` is set, so `seq`
starts at Go's zero value 0. -/
def newBasicWal (f : WFile) : BasicWal := { file := f, seq := 0 }

/-- A fresh, empty, always-writable WAL file. -/
def freshWalFile : WFile := { contents := [], quota := none, truncateFails := false }

/-- Embeds `BasicWal.rollback`: truncate to `size`, reporting a `ROLLBACK`
error if truncation fails. -/
def BasicWal.rollback (wal : BasicWal) (size : Nat) : BasicWal × Option WalError :=
  let r := wal.file.truncate size
  if r.2 then ({ wal with file := r.1 }, some ⟨.ROLLBACK, wal.seq⟩)
  else ({ wal with file := r.1 }, none)

/-- Embeds `BasicWal.Append`: stat the file, build the record
`{seq = seq+1, data = log}`, serialize, write it length-prefixed; advance
`seq` only on full success; on write failure roll back to the pre-append
size and return an `APPEND` error (or the `ROLLBACK` error if the rollback
itself failed).  `seq+1` wraps as a `uint32`. -/
def BasicWal.append (wal : BasicWal) (log : List Byte) : BasicWal × Option WalError :=
  let oldSize := wal.file.size
  let newSeq := (wal.seq + 1) % 2 ^ 32
  let logBytes := marshalWalLog newSeq log
  let w := writeDataWithVarintSize wal.file logBytes
  if w.2.2 then
    let rb := BasicWal.rollback { wal with file := w.1 } oldSize
    match rb.2 with
    | some e => (rb.1, some e)
    | none => (rb.1, some ⟨.APPEND, wal.seq⟩)
  else
    ({ file := w.1, seq := newSeq }, none)

/-! ## Skip list (`skiplist.go`)

Pointer-based nodes become a node store (`nodes : List SLNode`) addressed
by index; the head/sentinel is node 0.  `forwardNodeAtLevel : map[int]*node`
becomes a list of optional node ids indexed by level (absent level = `none`).
`randomLevel` is nondeterministic in the source (seeded from the clock), so
every operation that inserts takes the drawn level as an explicit
parameter `rlvl`. -/

/-- A skip-list node: key, value and the forward pointer per level. -/
structure SLNode where
  key : String
  value : List Byte
  fwd : List (Option Nat)
deriving DecidableEq, Repr

/-- `forwardNodeAtLevel[l]` — `none` models "level not in the map". -/
def SLNode.getFwd (n : SLNode) (l : Nat) : Option Nat :=
  n.fwd.getD l none

/-- `forwardNodeAtLevel[l] = target` — pads the level list as needed. -/
def SLNode.setFwd (n : SLNode) (l : Nat) (target : Nat) : SLNode :=
  { n with fwd := (n.fwd ++ List.replicate (l + 1 - n.fwd.length) none).set l (some target) }

/-- Embeds `skipList`: the node store (head = node 0), `height` and `size`.
(`prob` is part of the un-modelled randomness; `sentinel` aliases `head`.) -/
structure SkipList where
  nodes : List SLNode
  height : Nat
  size : Nat
deriving DecidableEq, Repr

/-- Embeds `newSkipList`: a single sentinel node with empty key and empty
value anchoring all levels, height 1, size 0. -/
def newSkipList : SkipList :=
  { nodes := [⟨"", [], []⟩], height := 1, size := 0 }

/-- Dereference a node id in a raw node store (ids are always in range in
reachable states). -/
def nodeOf (ns : List SLNode) (i : Nat) : SLNode :=
  ns.getD i ⟨"", [], []⟩

/-- Dereference a node id (ids are always in range in reachable states). -/
def SkipList.node (s : SkipList) (i : Nat) : SLNode :=
  nodeOf s.nodes i

/-- Loop of `skipList.search`, on explicit fuel; state is the current level
and current node id.  `some r` is the loop's answer (`r` the found node id,
if any); `none` means the fuel ran out, which cannot happen from `search`
in a reachable state. -/
def SkipList.searchLoop (s : SkipList) (key : String) :
    Nat → Nat → Nat → Option (Option Nat)
  | 0, _, _ => none
  | fuel + 1, curLevel, curId =>
    match (s.node curId).getFwd curLevel with
    | none =>
      if curLevel = 0 then some none
      else s.searchLoop key fuel (curLevel - 1) curId
    | some nid =>
      if strLe key (s.node nid).key then
        if (s.node nid).key = key then some (some nid)
        else if curLevel = 0 then some none
        else s.searchLoop key fuel (curLevel - 1) curId
      else s.searchLoop key fuel curLevel nid

/-- Fuel that provably suffices for the search and upsert traversals:
one descent per level plus one forward move per node. -/
def SkipList.searchFuel (s : SkipList) : Nat :=
  s.height + s.nodes.length + 1

/-- Embeds `skipList.search`: returns the id of the found node.  The
pre-loop check returns the head itself when its (empty) key matches. -/
def SkipList.search (s : SkipList) (key : String) : Option Nat :=
  if (s.node 0).key = key then some 0
  else (s.searchLoop key s.searchFuel (s.height - 1) 0).getD none

/-- The per-level splice of `skipList.insertNewNode`: walk the anchors from
level 0 up, stopping past `lvl`; at each level point the anchor at the new
node and forward the new node to the anchor's previous successor.  `ns` is
the node store, `nn` the new node being built.  A `none` anchor is
unreachable from `upsert` (the traversal fills every level; Go would
dereference nil). -/
def spliceGo (lvl newId : Nat) : Nat → List (Option Nat) → List SLNode → SLNode →
    List SLNode × SLNode
  | _, [], ns, nn => (ns, nn)
  | level, a :: rest, ns, nn =>
    if lvl < level then (ns, nn)
    else
      let stepped : List SLNode × SLNode :=
        match a with
        | none => (ns, nn)
        | some aid =>
          match ns.get? aid with
          | none => (ns, nn)
          | some anode =>
            let oldNext := anode.getFwd level
            let ns2 := ns.set aid (anode.setFwd level newId)
            match oldNext with
            | some t => (ns2, nn.setFwd level t)
            | none => (ns2, nn)
      spliceGo lvl newId (level + 1) rest stepped.1 stepped.2

/-- Embeds `skipList.insertNewNode` with the drawn random level `rlvl`:
if `rlvl ≥ height` the code sets `lvl = height+1`, appends the head as the
anchor of the two new levels and sets `height = lvl+1` (i.e. height grows
by two); then the new node is spliced in at levels `0..lvl` and `size`
is incremented. -/
def SkipList.insertNewNode (s : SkipList) (key : String) (value : List Byte)
    (anchors0 : List (Option Nat)) (rlvl : Nat) : SkipList :=
  let grow := s.height ≤ rlvl
  let lvl := if grow then s.height + 1 else rlvl
  let anchors := if grow then anchors0 ++ [some 0, some 0] else anchors0
  let height := if grow then lvl + 1 else s.height
  let newId := s.nodes.length
  let r := spliceGo lvl newId 0 anchors s.nodes ⟨key, value, []⟩
  { nodes := r.1 ++ [r.2], height := height, size := s.size + 1 }

/-- Loop of `skipList.upsert`, on explicit fuel; carries the `updateAnchors`
vector.  When the key is found its node's value is overwritten in place;
otherwise the insert happens at level 0 with the recorded anchors. -/
def SkipList.upsertLoop (s : SkipList) (key : String) (value : List Byte) (rlvl : Nat) :
    Nat → Nat → Nat → List (Option Nat) → Option SkipList
  | 0, _, _, _ => none
  | fuel + 1, curLevel, curId, anchors =>
    match (s.node curId).getFwd curLevel with
    | none =>
      let anchors2 := anchors.set curLevel (some curId)
      if curLevel = 0 then some (s.insertNewNode key value anchors2 rlvl)
      else s.upsertLoop key value rlvl fuel (curLevel - 1) curId anchors2
    | some nid =>
      if strLe key (s.node nid).key then
        if (s.node nid).key = key then
          some { s with nodes := s.nodes.set nid { s.node nid with value := value } }
        else
          let anchors2 := anchors.set curLevel (some curId)
          if curLevel = 0 then some (s.insertNewNode key value anchors2 rlvl)
          else s.upsertLoop key value rlvl fuel (curLevel - 1) curId anchors2
      else s.upsertLoop key value rlvl fuel curLevel nid anchors

/-- Embeds `skipList.upsert` with the drawn random level `rlvl`. -/
def SkipList.upsert (s : SkipList) (key : String) (value : List Byte) (rlvl : Nat) :
    SkipList :=
  (s.upsertLoop key value rlvl s.searchFuel (s.height - 1) 0
    (List.replicate s.height none)).getD s

/-- Walk the level-0 chain starting from `start` (fuel-bounded; the chain is
acyclic in reachable states). -/
def SkipList.chainWalk (s : SkipList) : Nat → Option Nat → List Nat
  | 0, _ => []
  | _ + 1, none => []
  | fuel + 1, some i => i :: s.chainWalk fuel ((s.node i).getFwd 0)

/-! ## Memtable (`memtable.go`) -/

/-- Embeds `SkipListMemTable`: skip list, WAL and the running `uint32` data
size. -/
structure SkipListMemTable where
  s : SkipList
  wal : BasicWal
  TotalSizeBytes : Nat
deriving DecidableEq, Repr

/-- Embeds `NewBasicMemTable` (with its fresh, healthy WAL file). -/
def newBasicMemTable : SkipListMemTable :=
  { s := newSkipList, wal := newBasicWal freshWalFile, TotalSizeBytes := 0 }

/-- Embeds `SkipListMemTable.Get`: a skip-list point lookup, surfacing the
found node's value. -/
def SkipListMemTable.Get (m : SkipListMemTable) (key : String) : Option (List Byte) :=
  (m.s.search key).map fun i => (m.s.node i).value

/-- Embeds `SkipListMemTable.Write` with the drawn level `rlvl`: serialize
`{key, value}`, append to the WAL — on failure propagate without touching
the skip list — then upsert and grow `TotalSizeBytes` by
`len(key) + len(value)` (`uint32` wraparound). -/
def SkipListMemTable.Write (m : SkipListMemTable) (key : String) (value : List Byte)
    (rlvl : Nat) : SkipListMemTable × Option WalError :=
  let walLog := marshalMemtableKeyValue key value
  let a := m.wal.append walLog
  match a.2 with
  | some e => ({ m with wal := a.1 }, some e)
  | none =>
    let sizeWritten := (strBytes key).length + value.length
    ({ s := m.s.upsert key value rlvl, wal := a.1,
       TotalSizeBytes := (m.TotalSizeBytes + sizeWritten) % 2 ^ 32 }, none)

/-- Embeds `SkipListMemTable.GetAll`: records in bottom-chain order. -/
def SkipListMemTable.GetAll (m : SkipListMemTable) : List (String × List Byte) :=
  (m.s.chainWalk m.s.nodes.length ((m.s.node 0).getFwd 0)).map
    fun i => ((m.s.node i).key, (m.s.node i).value)

/-- Embeds `SkipListMemTable.SizeBytes`. -/
def SkipListMemTable.SizeBytes (m : SkipListMemTable) : Nat :=
  m.TotalSizeBytes

/-! ## SSTable index (`sstable.go`) -/

/-- Embeds `indexEntry`: `(startKey, endKey, offset, size)`. -/
structure IndexEntry where
  startKey : String
  endKey : String
  offset : Nat
  size : Nat
deriving DecidableEq, Repr

/-- Embeds `BasicSSTableIndex`.  The Go struct also carries `meta`, a map
from start key to the (shared, mutable) entry; `update` keeps start keys
unique, so the map lookup coincides with finding the unique list entry with
that start key and the list alone determines the state. -/
structure BasicSSTableIndex where
  entries : List IndexEntry
deriving DecidableEq, Repr

/-- Embeds `NewBasicSSTableIndex`. -/
def newBasicSSTableIndex : BasicSSTableIndex := { entries := [] }

/-- Embeds `BasicSSTableIndex.update`: mutate the entry with this start key
if present (the `meta` hit), else append. -/
def BasicSSTableIndex.update (idx : BasicSSTableIndex) (startKey endKey : String)
    (offset size : Nat) : BasicSSTableIndex :=
  if idx.entries.any fun en => en.startKey = startKey then
    { entries := idx.entries.map fun en =>
        if en.startKey = startKey then ⟨startKey, endKey, offset, size⟩ else en }
  else
    { entries := idx.entries ++ [⟨startKey, endKey, offset, size⟩] }

/-- The ordered-scan fallback of `BasicSSTableIndex.GetOffset`: return the
first entry whose `[startKey, endKey]` range contains `key`; stop with
"not present" as soon as `key ≤ startKey` (the key falls between blocks). -/
def getOffsetScan (key : String) : List IndexEntry → Option (Nat × Nat)
  | [] => none
  | en :: rest =>
    if strLe en.startKey key && strLe key en.endKey then some (en.offset, en.size)
    else if strLe key en.startKey then none
    else getOffsetScan key rest

/-- Embeds `BasicSSTableIndex.GetOffset`; Go's `(offset, size, exist)`
becomes `Option (offset × size)`. -/
def BasicSSTableIndex.GetOffset (idx : BasicSSTableIndex) (key : String) :
    Option (Nat × Nat) :=
  match idx.entries.find? (fun en => en.startKey = key) with
  | some en => some (en.offset, en.size)
  | none => getOffsetScan key idx.entries

/-- A repeated-message proto element: tag, varint length, payload (emitted
even when the payload is empty, unlike scalar fields). -/
def protoMsgField (tag : Byte) (payload : List Byte) : List Byte :=
  tag :: putUvarint payload.length ++ payload

/-- Modelled from the spec: serialization of one `pb.SSTableIndexEntry`
`{start_key = 1, end_key = 2, offset = 3, size = 4}`. -/
def marshalIndexEntry (en : IndexEntry) : List Byte :=
  protoLenField 0x0A (strBytes en.startKey) ++ protoLenField 0x12 (strBytes en.endKey) ++
    protoVarintField 0x18 en.offset ++ protoVarintField 0x20 en.size

/-- Embeds `BasicSSTableIndex.Serialize` (the `pb.SSTableIndex` message:
repeated entries in field 1). -/
def BasicSSTableIndex.serialize (idx : BasicSSTableIndex) : List Byte :=
  idx.entries.flatMap fun en => protoMsgField 0x0A (marshalIndexEntry en)

/-! ## Proto parsing (reader side)

Modelled from the spec: `proto.Unmarshal` for the `pb` messages the reader
decodes.  The parsers accept exactly the wire encoding produced by the
marshallers above (tags in any order, later scalar occurrences winning, as
protobuf does); `string` fields are validated as UTF-8 the way Go's
protobuf does. -/

/-- Strict UTF-8 decoding (rejects overlong forms, surrogates and values
beyond `0x10FFFF`, as Go's protobuf string validation does). -/
def utf8DecodeLoop : Nat → List Byte → List Char → Option (List Char)
  | _, [], acc => some acc.reverse
  | 0, _ :: _, _ => none
  | fuel + 1, b :: rest, acc =>
    if b < 0x80 then utf8DecodeLoop fuel rest (Char.ofNat b :: acc)
    else if b < 0xC2 then none
    else if b < 0xE0 then
      match rest with
      | c1 :: r =>
        if 0x80 ≤ c1 ∧ c1 < 0xC0 then
          utf8DecodeLoop fuel r (Char.ofNat (((b - 0xC0) <<< 6) ||| (c1 - 0x80)) :: acc)
        else none
      | [] => none
    else if b < 0xF0 then
      match rest with
      | c1 :: c2 :: r =>
        if 0x80 ≤ c1 ∧ c1 < 0xC0 ∧ 0x80 ≤ c2 ∧ c2 < 0xC0 then
          let n := ((b - 0xE0) <<< 12) ||| ((c1 - 0x80) <<< 6) ||| (c2 - 0x80)
          if n < 0x800 ∨ (0xD800 ≤ n ∧ n < 0xE000) then none
          else utf8DecodeLoop fuel r (Char.ofNat n :: acc)
        else none
      | _ => none
    else if b < 0xF5 then
      match rest with
      | c1 :: c2 :: c3 :: r =>
        if 0x80 ≤ c1 ∧ c1 < 0xC0 ∧ 0x80 ≤ c2 ∧ c2 < 0xC0 ∧ 0x80 ≤ c3 ∧ c3 < 0xC0 then
          let n := ((b - 0xF0) <<< 18) ||| ((c1 - 0x80) <<< 12) ||| ((c2 - 0x80) <<< 6) |||
            (c3 - 0x80)
          if n < 0x10000 ∨ 0x110000 ≤ n then none
          else utf8DecodeLoop fuel r (Char.ofNat n :: acc)
        else none
      | _ => none
    else none

/-- Decode UTF-8 bytes to a `String`, failing on invalid encodings. -/
def utf8Decode (bs : List Byte) : Option String :=
  (utf8DecodeLoop bs.length bs []).map fun cs => ⟨cs⟩

/-- Parse the fields of a `{key, value}` message (`pb.SSTableKeyValue` /
`pb.MemtableKeyValue`): field 1 string key, field 2 bytes value. -/
def parseKeyValueLoop : Nat → List Byte → String → List Byte →
    Except Unit (String × List Byte)
  | _, [], k, v => .ok (k, v)
  | 0, _ :: _, _, _ => .error ()
  | fuel + 1, t :: rest, k, v =>
    match readUvarint rest with
    | .error _ => .error ()
    | .ok (l, r) =>
      if t = 0x0A then
        if r.length < l then .error ()
        else
          match utf8Decode (r.take l) with
          | none => .error ()
          | some k2 => parseKeyValueLoop fuel (r.drop l) k2 v
      else if t = 0x12 then
        if r.length < l then .error ()
        else parseKeyValueLoop fuel (r.drop l) k (r.take l)
      else .error ()

/-- Parse one `{key, value}` message body. -/
def parseKeyValue (bs : List Byte) : Except Unit (String × List Byte) :=
  parseKeyValueLoop bs.length bs "" []

/-- Parse a `pb.SSTableBlock` body: repeated `{key, value}` in field 1. -/
def parseSSTableBlockLoop : Nat → List Byte → List (String × List Byte) →
    Except Unit (List (String × List Byte))
  | _, [], acc => .ok acc.reverse
  | 0, _ :: _, _ => .error ()
  | fuel + 1, t :: rest, acc =>
    if t = 0x0A then
      match readUvarint rest with
      | .error _ => .error ()
      | .ok (l, r) =>
        if r.length < l then .error ()
        else
          match parseKeyValue (r.take l) with
          | .error _ => .error ()
          | .ok kv => parseSSTableBlockLoop fuel (r.drop l) (kv :: acc)
    else .error ()

/-- Parse the `pb.SSTableBlock` message. -/
def parseSSTableBlock (bs : List Byte) : Except Unit (List (String × List Byte)) :=
  parseSSTableBlockLoop bs.length bs []

/-- Parse the fields of one `pb.SSTableIndexEntry`. -/
def parseIndexEntryLoop : Nat → List Byte → IndexEntry → Except Unit IndexEntry
  | _, [], en => .ok en
  | 0, _ :: _, _ => .error ()
  | fuel + 1, t :: rest, en =>
    match readUvarint rest with
    | .error _ => .error ()
    | .ok (l, r) =>
      if t = 0x0A then
        if r.length < l then .error ()
        else
          match utf8Decode (r.take l) with
          | none => .error ()
          | some k => parseIndexEntryLoop fuel (r.drop l) { en with startKey := k }
      else if t = 0x12 then
        if r.length < l then .error ()
        else
          match utf8Decode (r.take l) with
          | none => .error ()
          | some k => parseIndexEntryLoop fuel (r.drop l) { en with endKey := k }
      else if t = 0x18 then parseIndexEntryLoop fuel r { en with offset := l }
      else if t = 0x20 then parseIndexEntryLoop fuel r { en with size := l }
      else .error ()

/-- Parse one `pb.SSTableIndexEntry` message body. -/
def parseIndexEntry (bs : List Byte) : Except Unit IndexEntry :=
  parseIndexEntryLoop bs.length bs ⟨"", "", 0, 0⟩

/-- Parse a `pb.SSTableIndex` body: repeated entries in field 1. -/
def parseSSTableIndexLoop : Nat → List Byte → List IndexEntry →
    Except Unit (List IndexEntry)
  | _, [], acc => .ok acc.reverse
  | 0, _ :: _, _ => .error ()
  | fuel + 1, t :: rest, acc =>
    if t = 0x0A then
      match readUvarint rest with
      | .error _ => .error ()
      | .ok (l, r) =>
        if r.length < l then .error ()
        else
          match parseIndexEntry (r.take l) with
          | .error _ => .error ()
          | .ok en => parseSSTableIndexLoop fuel (r.drop l) (en :: acc)
    else .error ()

/-- Parse the `pb.SSTableIndex` message. -/
def parseSSTableIndex (bs : List Byte) : Except Unit (List IndexEntry) :=
  parseSSTableIndexLoop bs.length bs []

/-! ## Snappy (`github.com/golang/snappy`)

Modelled from the snappy block format used by the `golang/snappy`
dependency.  The decoder is the full, strict block-format decoder of
`snappy.Decode`: varint decoded-length preamble, then literal and copy
elements; any leftover input bytes after the output is complete, any
truncated element and any out-of-window copy make it fail (Go's
`ErrCorrupt`).  The encoder models `snappy.Encode` on inputs shorter than
`minNonLiteralBlockSize` (16 bytes) — a single literal element — which
covers every block evaluated in this development; on longer inputs the real
encoder may additionally emit copy elements. -/

/-- Model of `golang/snappy emitLiteral`: a literal tag (with 0–4 extra
length bytes) followed by the literal bytes. -/
def snappyEmitLiteral (lit : List Byte) : List Byte :=
  let n := lit.length - 1
  (if n < 60 then [n <<< 2]
   else if n < 0x100 then [240, n]
   else if n < 0x10000 then [244, n &&& 0xFF, n >>> 8]
   else if n < 0x1000000 then [248, n &&& 0xFF, (n >>> 8) &&& 0xFF, n >>> 16]
   else [252, n &&& 0xFF, (n >>> 8) &&& 0xFF, (n >>> 16) &&& 0xFF, n >>> 24]) ++ lit

/-- Model of `snappy.Encode` (see the section comment for its scope). -/
def snappyEncode (src : List Byte) : List Byte :=
  if src = [] then putUvarint 0
  else putUvarint src.length ++ snappyEmitLiteral src

/-- Copy `len` bytes from `offset` bytes back in the output, one byte at a
time (run-length semantics for overlapping copies), as snappy decoding
does. -/
def snappyCopyFrom (d : List Byte) (offset : Nat) : Nat → List Byte
  | 0 => d
  | len + 1 => snappyCopyFrom (d ++ [d.getD (d.length - offset) 0]) offset len

/-- The element loop of `snappy.Decode` (`decode` in `decode_other.go`):
`d` is the output built so far, `dLen` the promised decoded length.
Fails exactly when Go's decoder reports corruption. -/
def snappyDecodeLoop (dLen : Nat) : Nat → List Byte → List Byte → Except Unit (List Byte)
  | _, [], d => if d.length = dLen then .ok d else .error ()
  | 0, _ :: _, _ => .error ()
  | fuel + 1, b :: rest, d =>
    if b % 4 = 0 then
      let x := b >>> 2
      let hdr : Except Unit (Nat × List Byte) :=
        if x < 60 then .ok (x, rest)
        else if x = 60 then
          match rest with
          | y :: r => .ok (y, r)
          | [] => .error ()
        else if x = 61 then
          match rest with
          | y0 :: y1 :: r => .ok (y0 ||| (y1 <<< 8), r)
          | _ => .error ()
        else if x = 62 then
          match rest with
          | y0 :: y1 :: y2 :: r => .ok (y0 ||| (y1 <<< 8) ||| (y2 <<< 16), r)
          | _ => .error ()
        else
          match rest with
          | y0 :: y1 :: y2 :: y3 :: r =>
            .ok (y0 ||| (y1 <<< 8) ||| (y2 <<< 16) ||| (y3 <<< 24), r)
          | _ => .error ()
      match hdr with
      | .error _ => .error ()
      | .ok (x2, r) =>
        let length := x2 + 1
        if dLen - d.length < length ∨ r.length < length then .error ()
        else snappyDecodeLoop dLen fuel (r.drop length) (d ++ r.take length)
    else
      let cp : Except Unit (Nat × Nat × List Byte) :=
        if b % 4 = 1 then
          match rest with
          | y :: r => .ok (4 + ((b >>> 2) &&& 0x7), ((b &&& 0xe0) <<< 3) ||| y, r)
          | [] => .error ()
        else if b % 4 = 2 then
          match rest with
          | y0 :: y1 :: r => .ok (1 + (b >>> 2), y0 ||| (y1 <<< 8), r)
          | _ => .error ()
        else
          match rest with
          | y0 :: y1 :: y2 :: y3 :: r =>
            .ok (1 + (b >>> 2), y0 ||| (y1 <<< 8) ||| (y2 <<< 16) ||| (y3 <<< 24), r)
          | _ => .error ()
      match cp with
      | .error _ => .error ()
      | .ok (length, offset, r) =>
        if offset = 0 ∨ d.length < offset ∨ dLen - d.length < length then .error ()
        else snappyDecodeLoop dLen fuel r (snappyCopyFrom d offset length)

/-- Model of `snappy.Decode`. -/
def snappyDecode (src : List Byte) : Except Unit (List Byte) :=
  match readUvarint src with
  | .error _ => .error ()
  | .ok (dLen, rest) =>
    if 0xFFFFFFFF < dLen then .error ()
    else snappyDecodeLoop dLen rest.length rest []

/-! ## SSTable writer and reader (`sstable.go`)

The writer's file never fails in the modelled paths (a fresh local file),
so `Dump` is a pure function from the records to the file bytes plus the
built index.  The reader state carries the file bytes, the loaded index and
the block cache. -/

/-- SSTable operation codes (`OP_SSTABLE_*`). -/
inductive SSTableOp where
  | READ_FILE
  | LOAD_INDEX
  | LOAD_DATABLOCK
  | CREATE_FILE
  | WRITE_DATA
  | WRITE_INDEX
deriving DecidableEq, Repr

/-- Embeds `SSTableError` (the underlying cause is not modelled). -/
structure SSTableError where
  op : SSTableOp
deriving DecidableEq, Repr

/-- Embeds `BasicSSTable.serializeBlock` followed by the varint size prefix
of `writeBlock`: `varint(len) || snappy(proto(block))`; the result length is
`writeBlock`'s `written`. -/
def writeBlockBytes (entries : List (String × List Byte)) : List Byte :=
  let raw := snappyEncode (entries.flatMap fun e =>
    protoMsgField 0x0A (marshalMemtableKeyValue e.1 e.2))
  putUvarint raw.length ++ raw

/-- First key of a block (`block.Data[0].Key`; blocks are never empty when
written). -/
def blockStartKey (entries : List (String × List Byte)) : String :=
  (entries.headD ("", [])).1

/-- Last key of a block (`block.Data[len-1].Key`). -/
def blockEndKey (entries : List (String × List Byte)) : String :=
  (entries.getLastD ("", [])).1

/-- Accumulator of `writeDataBlocksAndUpdateIndex`: the buffered block and
its raw key+value size, the data bytes written so far with their total, and
the index under construction. -/
structure DumpAcc where
  blockData : List (String × List Byte)
  accBlockKeyValueSize : Nat
  totalDataSize : Nat
  dataBytes : List Byte
  idx : BasicSSTableIndex

/-- The record loop of `BasicSSTable.writeDataBlocksAndUpdateIndex`:
buffer each record; once the accumulated raw key+value size reaches
`blockSize`, emit the block and record an index entry at
`startOffset + totalDataSize`. -/
def writeDataBlocksLoop (blockSize startOffset : Nat) :
    List (String × List Byte) → DumpAcc → DumpAcc
  | [], a => a
  | rec :: rest, a =>
    let blockData2 := a.blockData ++ [rec]
    let accSize2 := a.accBlockKeyValueSize + (strBytes rec.1).length + rec.2.length
    if blockSize ≤ accSize2 then
      let w := writeBlockBytes blockData2
      let idx2 := a.idx.update (blockStartKey blockData2) (blockEndKey blockData2)
        (startOffset + a.totalDataSize) w.length
      writeDataBlocksLoop blockSize startOffset rest
        ⟨[], 0, a.totalDataSize + w.length, a.dataBytes ++ w, idx2⟩
    else
      writeDataBlocksLoop blockSize startOffset rest
        { a with blockData := blockData2, accBlockKeyValueSize := accSize2 }

/-- Embeds `writeDataBlocksAndUpdateIndex` (with `startOffset = 10`, the
header width): the loop plus the final, possibly undersized block. -/
def writeDataBlocks (blockSize startOffset : Nat) (records : List (String × List Byte)) :
    DumpAcc :=
  let a := writeDataBlocksLoop blockSize startOffset records ⟨[], 0, 0, [], ⟨[]⟩⟩
  if 0 < a.accBlockKeyValueSize then
    let w := writeBlockBytes a.blockData
    let idx2 := a.idx.update (blockStartKey a.blockData) (blockEndKey a.blockData)
      (startOffset + a.totalDataSize) w.length
    ⟨[], 0, a.totalDataSize + w.length, a.dataBytes ++ w, idx2⟩
  else a

/-- Embeds `BasicSSTable.Dump` on a fresh file as a pure function: the
10-byte varint header (written in place after the blocks), the data-blocks
region, and the length-prefixed index. -/
def sstableDump (blockSize : Nat) (records : List (String × List Byte)) : List Byte :=
  let a := writeDataBlocks blockSize 10 records
  let idxBytes := a.idx.serialize
  putUvarintFixed10 a.totalDataSize ++ a.dataBytes ++ putUvarint idxBytes.length ++ idxBytes

/-- The index built by `Dump` (the writer-side index, also serialized into
the file). -/
def sstableDumpIndex (blockSize : Nat) (records : List (String × List Byte)) :
    BasicSSTableIndex :=
  (writeDataBlocks blockSize 10 records).idx

/-- Embeds the reader state of `BasicSSTable` (`NewBasicSSTableReader`):
file bytes, loaded index, block cache keyed by offset. -/
structure SSTableReaderState where
  file : List Byte
  idx : BasicSSTableIndex
  rBlockCache : List (Nat × List (String × List Byte))
deriving DecidableEq, Repr

/-- Embeds `loadIndexFromFile`: read the leading varint (the header's
zero padding is ignored because a varint self-terminates), seek to
`10 + dataSize`, read the length-prefixed index payload, deserialize, and
replay the entries through `update`. -/
def loadIndexFromFile (file : List Byte) : Except Unit BasicSSTableIndex :=
  match readUvarint file with
  | .error _ => .error ()
  | .ok (dataSize, _) =>
    match readDataWithVarint (file.drop (dataSize + 10)) none with
    | .error _ => .error ()
    | .ok (buf, _) =>
      match parseSSTableIndex buf with
      | .error _ => .error ()
      | .ok entryList =>
        .ok (entryList.foldl
          (fun i en => i.update en.startKey en.endKey en.offset en.size)
          newBasicSSTableIndex)

/-- Embeds `NewBasicSSTableReader`: load the index (surfacing a
`LOAD_INDEX` error) and start with an empty block cache. -/
def newBasicSSTableReader (file : List Byte) : Except SSTableError SSTableReaderState :=
  match loadIndexFromFile file with
  | .error _ => .error ⟨.LOAD_INDEX⟩
  | .ok idx => .ok ⟨file, idx, []⟩

/-- The linear scan of a decoded block for `key`. -/
def scanBlock (block : List (String × List Byte)) (key : String) : Option (List Byte) :=
  (block.find? fun e => e.1 = key).map fun e => e.2

/-- Embeds reader-side `BasicSSTable.Get`: consult the index; on a cache
miss read exactly `size` bytes at `offset`, strip the varint length *reusing
the very same buffer*, Snappy-decompress, deserialize, cache; then scan the
block.  Returns the result together with the updated reader (the Go method
mutates the cache). -/
def SSTableReaderState.get (r : SSTableReaderState) (key : String) :
    Except SSTableError (Option (List Byte) × SSTableReaderState) :=
  match r.idx.GetOffset key with
  | none => .ok (none, r)
  | some (offset, size) =>
    match r.rBlockCache.find? fun c => c.1 = offset with
    | some c => .ok (scanBlock c.2 key, r)
    | none =>
      if r.file.length < offset + size then .error ⟨.LOAD_DATABLOCK⟩
      else
        let buf := (r.file.drop offset).take size
        match readDataWithVarint buf (some buf) with
        | .error _ => .error ⟨.LOAD_DATABLOCK⟩
        | .ok (dataBuf, _) =>
          match snappyDecode dataBuf with
          | .error _ => .error ⟨.LOAD_DATABLOCK⟩
          | .ok data =>
            match parseSSTableBlock data with
            | .error _ => .error ⟨.LOAD_DATABLOCK⟩
            | .ok block =>
              .ok (scanBlock block key,
                { r with rBlockCache := r.rBlockCache ++ [(offset, block)] })

/-! ## Database façade (`db.go`) -/

/-- The configuration fields the core reads (`DBSetting`). -/
structure DBSetting where
  memtableSizeByte : Nat
  sstableDatablockSizeByte : Nat
deriving DecidableEq, Repr

/-- Embeds `Database`.  `memtablesToCompact` is the queue field `Get`
iterates; nothing in `db.go` ever appends to it.  `compactionChan` holds the
memtables sent on `memtableCompactionChan` and not yet serialized by the
background loop.  `sstables` is the SSTable directory, newest file first
(as `getAllSSTableFileMetadata` returns it). -/
structure Database where
  setting : DBSetting
  curMem : SkipListMemTable
  memtablesToCompact : List SkipListMemTable
  compactionChan : List SkipListMemTable
  sstables : List (List Byte)
deriving DecidableEq, Repr

/-- Embeds `NewDatabase` (fresh directories, fresh memtable). -/
def newDatabase (setting : DBSetting) : Database :=
  { setting := setting, curMem := newBasicMemTable, memtablesToCompact := [],
    compactionChan := [], sstables := [] }

/-- Embeds `Database.Write` with the drawn level `rlvl`: write into the
current memtable (propagating errors), then if the memtable has reached
`uint32(MemtableSizeByte)` send it to the compaction channel and install a
fresh memtable. -/
def Database.write (db : Database) (key : String) (value : List Byte) (rlvl : Nat) :
    Database × Option WalError :=
  let w := db.curMem.Write key value rlvl
  match w.2 with
  | some e => ({ db with curMem := w.1 }, some e)
  | none =>
    if db.setting.memtableSizeByte % 2 ^ 32 ≤ w.1.SizeBytes then
      ({ db with
          curMem := newBasicMemTable,
          compactionChan := db.compactionChan ++ [w.1] }, none)
    else ({ db with curMem := w.1 }, none)

/-- One iteration of the background `memtableCompactionLoop`: receive a
memtable from the channel, serialize it to a new (newest) SSTable file, and
retire its WAL. -/
def Database.compactStep (db : Database) : Database :=
  match db.compactionChan with
  | [] => db
  | mem :: rest =>
    { db with
        compactionChan := rest,
        sstables := sstableDump db.setting.sstableDatablockSizeByte mem.GetAll ::
          db.sstables }

/-- The SSTable probe loop of `Database.Get`: files newest first; an error
or a found value returns immediately. -/
def dbGetSSTables (key : String) : List (List Byte) → Except SSTableError (Option (List Byte))
  | [] => .ok none
  | file :: rest =>
    match newBasicSSTableReader file with
    | .error e => .error e
    | .ok r =>
      match r.get key with
      | .error e => .error e
      | .ok (some v, _) => .ok (some v)
      | .ok (none, _) => dbGetSSTables key rest

/-- Embeds `Database.Get`: current memtable first, then the (never
populated) `memtablesToCompact` queue, then the SSTable files newest first. -/
def Database.get (db : Database) (key : String) : Except SSTableError (Option (List Byte)) :=
  match db.curMem.Get key with
  | some v => .ok (some v)
  | none =>
    match db.memtablesToCompact.findSome? fun m => m.Get key with
    | some v => .ok (some v)
    | none => dbGetSSTables key db.sstables

/-! ## Skip-list invariant and abstraction

The verification-side view of a skip list: `c` lists the node ids of the
level-0 chain after the head, in order.  `SLInv` is the structural invariant
every reachable skip list satisfies; `absMap` is the abstraction to an
ordered association list. -/

/-- The key of node `i`. -/
def sKey (s : SkipList) (i : Nat) : String := (s.node i).key

/-- The value of node `i`. -/
def sVal (s : SkipList) (i : Nat) : List Byte := (s.node i).value

/-- Structural invariant of a reachable skip list with level-0 chain `c`
(the head, node 0, is position 0 of `0 :: c`). -/
structure SLInv (s : SkipList) (c : List Nat) : Prop where
  heightPos : 0 < s.height
  nodesNE : s.nodes ≠ []
  headKey : sKey s 0 = ""
  headVal : sVal s 0 = []
  chainMem : ∀ i ∈ c, i ≠ 0 ∧ i < s.nodes.length
  link0 : ∀ j a, (0 :: c).get? j = some a → (s.node a).getFwd 0 = (0 :: c).get? (j + 1)
  edges : ∀ j a l t, (0 :: c).get? j = some a → (s.node a).getFwd l = some t →
    ∃ jt, j < jt ∧ (0 :: c).get? jt = some t
  sorted : c.Pairwise fun i1 i2 => strLt (sKey s i1) (sKey s i2) = true
  fwdHeight : ∀ j a l, (0 :: c).get? j = some a → s.height ≤ l →
    (s.node a).getFwd l = none

/-- Abstraction of the chain to an association list. -/
def absMap (s : SkipList) (c : List Nat) : List (String × List Byte) :=
  c.map fun i => (sKey s i, sVal s i)

/-- The abstract effect of one upsert on a key-sorted association list. -/
def absUpsert : List (String × List Byte) → String → List Byte →
    List (String × List Byte)
  | [], k, v => [(k, v)]
  | e :: rest, k, v =>
    if e.1 = k then (k, v) :: rest
    else if strLt k e.1 then (k, v) :: e :: rest
    else e :: absUpsert rest k v

/-- Association-list lookup. -/
def absLookup (m : List (String × List Byte)) (k : String) : Option (List Byte) :=
  (m.find? fun e => e.1 = k).map fun e => e.2

/-- The value of the last write to `k` in a write sequence
(key, value, drawn level). -/
def lastWrite (ws : List (String × List Byte × Nat)) (k : String) : Option (List Byte) :=
  ws.foldl (fun acc w => if w.1 = k then some w.2.1 else acc) none

/-- Fold a write sequence into a memtable. -/
def memWriteAll (m : SkipListMemTable) : List (String × List Byte × Nat) →
    SkipListMemTable
  | [] => m
  | w :: rest => memWriteAll (m.Write w.1 w.2.1 w.2.2).1 rest

/-- Fold a write sequence into a database. -/
def dbWriteAll (db : Database) : List (String × List Byte × Nat) → Database
  | [] => db
  | w :: rest => dbWriteAll (db.write w.1 w.2.1 w.2.2).1 rest

/-- What `upsert`'s traversal guarantees of a recorded anchor for level `l`
when the key `k` being inserted is absent: the anchor is a chain node (or the
head), its key is below `k`, and its level-`l` successor (if any) has a key
above `k`. -/
def anchorAt (s : SkipList) (c : List Nat) (k : String) (l b : Nat) : Prop :=
  (∃ jb, (0 :: c).get? jb = some b) ∧ strLt (sKey s b) k = true ∧
    ((s.node b).getFwd l = none ∨
      ∃ t, (s.node b).getFwd l = some t ∧ strLt k (sKey s t) = true)

/-! ## General lemmas -/

theorem wfile_write_spec (f : WFile) (p : List Byte) :
    (∃ q, (f.write p).1.contents = f.contents ++ q) ∧
    (f.write p).1.truncateFails = f.truncateFails := by
  rcases f with ⟨c, q, t⟩
  cases q with
  | none => exact ⟨⟨p, rfl⟩, rfl⟩
  | some q =>
    by_cases h : p.length ≤ q
    · refine ⟨⟨p, ?_⟩, ?_⟩ <;> simp [WFile.write, h]
    · refine ⟨⟨p.take q, ?_⟩, ?_⟩ <;> simp [WFile.write, h]

theorem writeDataWithVarintSize_spec (f : WFile) (raw : List Byte) :
    (∃ q, (writeDataWithVarintSize f raw).1.contents = f.contents ++ q) ∧
    (writeDataWithVarintSize f raw).1.truncateFails = f.truncateFails := by
  obtain ⟨⟨q1, hq1⟩, ht1⟩ := wfile_write_spec f (putUvarint raw.length)
  obtain ⟨⟨q2, hq2⟩, ht2⟩ := wfile_write_spec (f.write (putUvarint raw.length)).1 raw
  cases hb : (f.write (putUvarint raw.length)).2.2 with
  | true =>
    refine ⟨⟨q1, ?_⟩, ?_⟩ <;> simp [writeDataWithVarintSize, hb, hq1, ht1]
  | false =>
    refine ⟨⟨q1 ++ q2, ?_⟩, ?_⟩ <;>
      simp [writeDataWithVarintSize, hb, hq2, hq1, ht2, ht1, List.append_assoc]

/-! ### Order facts for the byte-wise string comparison -/

theorem lexLt_irrefl (l : List Nat) : lexLt l l = false := by
  induction l with
  | nil => rfl
  | cons a as ih => simp [lexLt, ih]

theorem lexLt_trans : ∀ {a b c : List Nat},
    lexLt a b = true → lexLt b c = true → lexLt a c = true
  | [], _ :: _, _ :: _, _, _ => rfl
  | [], [], _, h1, _ => by simp [lexLt] at h1
  | [], _ :: _, [], _, h2 => by simp [lexLt] at h2
  | _ :: _, [], _, h1, _ => by simp [lexLt] at h1
  | _ :: _, _ :: _, [], _, h2 => by simp [lexLt] at h2
  | a0 :: as, b0 :: bs, c0 :: cs, h1, h2 => by
    simp only [lexLt] at h1 h2 ⊢
    by_cases hab : a0 < b0
    · by_cases hbc : b0 < c0
      · simp [show a0 < c0 by omega]
      · by_cases hcb : c0 < b0
        · simp [hbc, hcb] at h2
        · have hbceq : b0 = c0 := by omega
          subst hbceq
          simp [hab]
    · by_cases hba : b0 < a0
      · simp [hab, hba] at h1
      · have habeq : a0 = b0 := by omega
        subst habeq
        simp only [Nat.lt_irrefl, if_false] at h1
        by_cases hac : a0 < c0
        · simp [hac]
        · by_cases hca : c0 < a0
          · simp [hac, hca] at h2
          · have haceq : a0 = c0 := by omega
            subst haceq
            simp only [Nat.lt_irrefl, if_false] at h2 ⊢
            exact lexLt_trans h1 h2

theorem lexLt_asymm : ∀ {a b : List Nat}, lexLt a b = true → lexLt b a = false
  | [], _ :: _, _ => rfl
  | [], [], h => by simp [lexLt] at h
  | _ :: _, [], h => by simp [lexLt] at h
  | a0 :: as, b0 :: bs, h => by
    simp only [lexLt] at h ⊢
    by_cases hab : a0 < b0
    · simp [hab, show ¬ b0 < a0 by omega]
    · by_cases hba : b0 < a0
      · simp [hab, hba] at h
      · have habeq : a0 = b0 := by omega
        subst habeq
        simp only [Nat.lt_irrefl, if_false] at h ⊢
        exact lexLt_asymm h

theorem lexLt_eq_of_not : ∀ {a b : List Nat},
    lexLt a b = false → lexLt b a = false → a = b
  | [], [], _, _ => rfl
  | [], _ :: _, h1, _ => by simp [lexLt] at h1
  | _ :: _, [], _, h2 => by simp [lexLt] at h2
  | a0 :: as, b0 :: bs, h1, h2 => by
    simp only [lexLt] at h1 h2
    by_cases hab : a0 < b0
    · simp [hab] at h1
    · by_cases hba : b0 < a0
      · simp [hba] at h2
      · have habeq : a0 = b0 := by omega
        subst habeq
        simp only [Nat.lt_irrefl, if_false] at h1 h2
        rw [lexLt_eq_of_not h1 h2]

theorem string_data_inj : ∀ {x y : String}, x.data = y.data → x = y
  | ⟨_⟩, ⟨_⟩, h => congrArg String.mk h

theorem strLt_irrefl (x : String) : strLt x x = false :=
  lexLt_irrefl _

theorem strLt_trans {x y z : String} (h1 : strLt x y = true) (h2 : strLt y z = true) :
    strLt x z = true :=
  lexLt_trans h1 h2

theorem strLt_asymm {x y : String} (h : strLt x y = true) : strLt y x = false :=
  lexLt_asymm h

theorem strEq_of_not_lt {x y : String} (h1 : strLt x y = false)
    (h2 : strLt y x = false) : x = y := by
  have hdata := lexLt_eq_of_not h1 h2
  have hxy : x.data = y.data := by
    have hinj : Function.Injective Char.toNat := fun c d h => by
      have hcd := congrArg Char.ofNat h
      rwa [Char.ofNat_toNat, Char.ofNat_toNat] at hcd
    exact List.map_injective_iff.mpr hinj hdata
  exact string_data_inj hxy

theorem strLt_empty {k : String} (h : k ≠ "") : strLt "" k = true := by
  unfold strLt
  cases hk : k.data with
  | nil => exact absurd (string_data_inj (by simp [hk])) h
  | cons c cs => simp [hk, lexLt]

theorem strLe_refl (x : String) : strLe x x = true := by
  simp [strLe, strLt_irrefl]

theorem strLe_of_eq {x y : String} (h : x = y) : strLe x y = true := by
  rw [h]; exact strLe_refl y

theorem not_strLe {x y : String} : strLe x y = false ↔ strLt y x = true := by
  simp [strLe]

theorem strLe_iff {x y : String} : strLe x y = true ↔ strLt y x = false := by
  simp [strLe]

theorem strLt_of_lt_of_le {x y z : String} (h1 : strLt x y = true)
    (h2 : strLe y z = true) : strLt x z = true := by
  rw [strLe_iff] at h2
  cases hxz : strLt x z with
  | true => rfl
  | false =>
    cases hzx : strLt z x with
    | true =>
      rw [strLt_trans hzx h1] at h2
      exact Bool.noConfusion h2
    | false =>
      rw [← strEq_of_not_lt hxz hzx] at h2
      rw [h1] at h2
      exact Bool.noConfusion h2

theorem strLt_of_le_of_lt {x y z : String} (h1 : strLe x y = true)
    (h2 : strLt y z = true) : strLt x z = true := by
  rw [strLe_iff] at h1
  cases hxz : strLt x z with
  | true => rfl
  | false =>
    cases hzx : strLt z x with
    | true =>
      rw [strLt_trans h2 hzx] at h1
      exact Bool.noConfusion h1
    | false =>
      rw [strEq_of_not_lt hxz hzx] at h1
      rw [h2] at h1
      exact Bool.noConfusion h1

theorem strLe_trans {x y z : String} (h1 : strLe x y = true)
    (h2 : strLe y z = true) : strLe x z = true := by
  rw [strLe_iff] at h1 h2 ⊢
  cases hzx : strLt z x with
  | false => rfl
  | true =>
    cases hzy : strLt z y with
    | true =>
      rw [hzy] at h2
      exact Bool.noConfusion h2
    | false =>
      cases hyz : strLt y z with
      | true =>
        rw [strLt_trans hyz hzx] at h1
        exact Bool.noConfusion h1
      | false =>
        rw [← strEq_of_not_lt hyz hzy] at hzx
        rw [hzx] at h1
        exact Bool.noConfusion h1

theorem strLe_of_lt {x y : String} (h : strLt x y = true) : strLe x y = true := by
  rw [strLe_iff]
  exact strLt_asymm h

theorem strLe_empty (x : String) : strLe "" x = true := by
  have h : strLt x "" = false := by
    unfold strLt
    cases hx : x.data.map Char.toNat with
    | nil => rfl
    | cons c cs => rfl
  simp [strLe, h]

theorem strLt_of_le_of_ne {x y : String} (h1 : strLe x y = true) (h2 : y ≠ x) :
    strLt x y = true := by
  rw [strLe_iff] at h1
  cases hxy : strLt x y with
  | true => rfl
  | false => exact absurd (strEq_of_not_lt h1 hxy) h2

/-! ### Node-store primitives -/

theorem getD_set_self {α : Type} (l : List α) (i : Nat) (a d : α) (h : i < l.length) :
    (l.set i a).getD i d = a := by
  simp [List.getD, List.getElem?_set_self', List.getElem?_eq_getElem h]

theorem getD_set_other {α : Type} (l : List α) (i j : Nat) (a d : α) (h : i ≠ j) :
    (l.set i a).getD j d = l.getD j d := by
  simp [List.getD, List.getElem?_set_ne h]

theorem replicate_none_getD (m i : Nat) :
    (List.replicate m (none : Option Nat)).getD i none = none := by
  by_cases h : i < m
  · simp [List.getD, List.getElem?_replicate, h]
  · exact List.getD_eq_default _ _ (by simpa using Nat.le_of_not_lt h)

theorem setFwd_key (n : SLNode) (l t : Nat) : (n.setFwd l t).key = n.key := rfl

theorem setFwd_value (n : SLNode) (l t : Nat) : (n.setFwd l t).value = n.value := rfl

theorem getFwd_setFwd_self (n : SLNode) (l t : Nat) : (n.setFwd l t).getFwd l = some t := by
  unfold SLNode.setFwd SLNode.getFwd
  have hlen : l < (n.fwd ++ List.replicate (l + 1 - n.fwd.length) none).length := by
    simp only [List.length_append, List.length_replicate]
    omega
  exact getD_set_self _ _ _ _ hlen

theorem getFwd_setFwd_other (n : SLNode) (l l' t : Nat) (h : l' ≠ l) :
    (n.setFwd l t).getFwd l' = n.getFwd l' := by
  unfold SLNode.setFwd SLNode.getFwd
  rw [getD_set_other _ _ _ _ _ (Ne.symm h)]
  by_cases hl : l' < n.fwd.length
  · rw [List.getD_append _ _ _ _ hl]
  · rw [List.getD_eq_default _ _ (Nat.le_of_not_lt hl),
      List.getD_append_right _ _ _ _ (Nat.le_of_not_lt hl), replicate_none_getD]

/-! ### Derived facts about the invariant -/

theorem pairwise_get? {α : Type} {R : α → α → Prop} {l : List α} (h : l.Pairwise R)
    {i j : Nat} {a b : α} (hij : i < j) (ha : l.get? i = some a)
    (hb : l.get? j = some b) : R a b := by
  obtain ⟨hi, rfl⟩ := List.get?_eq_some.mp ha
  obtain ⟨hj, rfl⟩ := List.get?_eq_some.mp hb
  exact List.pairwise_iff_get.mp h ⟨i, hi⟩ ⟨j, hj⟩ hij

theorem SLInv.chainNodup {s : SkipList} {c : List Nat} (inv : SLInv s c) :
    (0 :: c).Nodup := by
  have hc : c.Nodup := by
    refine List.Pairwise.imp ?_ inv.sorted
    intro i1 i2 h heq
    rw [heq] at h
    rw [strLt_irrefl] at h
    exact Bool.noConfusion h
  refine List.nodup_cons.mpr ⟨?_, hc⟩
  intro h0
  exact (inv.chainMem 0 h0).1 rfl

theorem SLInv.chainLen {s : SkipList} {c : List Nat} (inv : SLInv s c) :
    c.length ≤ s.nodes.length := by
  have hc : c.Nodup := (List.nodup_cons.mp inv.chainNodup).2
  have hsub : c.toFinset ⊆ Finset.range s.nodes.length := by
    intro i hi
    rw [List.mem_toFinset] at hi
    rw [Finset.mem_range]
    exact (inv.chainMem i hi).2
  calc c.length = c.toFinset.card := by rw [List.toFinset_card_of_nodup hc]
    _ ≤ (Finset.range s.nodes.length).card := Finset.card_le_card hsub
    _ = s.nodes.length := Finset.card_range _

theorem pos_unique {c : List Nat} (hnd : (0 :: c).Nodup) {j1 j2 : Nat} {a : Nat}
    (h1 : (0 :: c).get? j1 = some a) (h2 : (0 :: c).get? j2 = some a) : j1 = j2 := by
  rcases Nat.lt_trichotomy j1 j2 with h | h | h
  · exact absurd rfl (pairwise_get? hnd h h1 h2)
  · exact h
  · exact absurd rfl (pairwise_get? hnd h h2 h1)

theorem key_lt_of_pos {s : SkipList} {c : List Nat} (inv : SLInv s c) {j1 j2 a b : Nat}
    (h1 : (0 :: c).get? j1 = some a) (h2 : (0 :: c).get? j2 = some b)
    (hlt : j1 < j2) (hj1 : 1 ≤ j1) : strLt (sKey s a) (sKey s b) = true := by
  obtain ⟨j1p, rfl⟩ : ∃ j1p, j1 = j1p + 1 := ⟨j1 - 1, by omega⟩
  obtain ⟨j2p, rfl⟩ : ∃ j2p, j2 = j2p + 1 := ⟨j2 - 1, by omega⟩
  have h1c : c.get? j1p = some a := h1
  have h2c : c.get? j2p = some b := h2
  exact pairwise_get? inv.sorted (by omega) h1c h2c

theorem key_le_of_pos {s : SkipList} {c : List Nat} (inv : SLInv s c) {j1 j2 a b : Nat}
    (h1 : (0 :: c).get? j1 = some a) (h2 : (0 :: c).get? j2 = some b)
    (hle : j1 ≤ j2) : strLe (sKey s a) (sKey s b) = true := by
  rcases Nat.eq_or_lt_of_le hle with heq | hlt
  · subst heq
    rw [h1] at h2
    rw [Option.some_inj.mp h2]
    exact strLe_refl _
  · cases j1 with
    | zero =>
      have ha : a = 0 := Option.some_inj.mp h1.symm
      rw [ha, inv.headKey]
      exact strLe_empty _
    | succ j1p =>
      exact strLe_of_lt (key_lt_of_pos inv h1 h2 hlt (Nat.succ_le_succ (Nat.zero_le _)))

theorem chain_find?_of_mem {s : SkipList} {c : List Nat}
    (hsort : c.Pairwise fun i1 i2 => strLt (sKey s i1) (sKey s i2) = true) {i : Nat}
    {k : String} (hi : i ∈ c) (hk : sKey s i = k) :
    (c.find? fun x => sKey s x = k) = some i := by
  induction c with
  | nil => exact absurd hi (List.not_mem_nil i)
  | cons e rest ih =>
    rcases List.mem_cons.mp hi with rfl | htail
    · simp [List.find?, hk]
    · have hek : sKey s e ≠ k := by
        intro hek
        have hlt := (List.pairwise_cons.mp hsort).1 i htail
        rw [hek, hk] at hlt
        rw [strLt_irrefl] at hlt
        exact Bool.noConfusion hlt
      simp only [List.find?, decide_eq_false hek]
      exact ih (List.pairwise_cons.mp hsort).2 htail

theorem chain_find?_none {s : SkipList} {c : List Nat} {k : String}
    (h : ∀ i ∈ c, sKey s i ≠ k) :
    (c.find? fun x => sKey s x = k) = none :=
  List.find?_eq_none.mpr fun x hx => by simpa using h x hx

/-! ### Search correctness -/

theorem searchLoop_correct {s : SkipList} {c : List Nat} (inv : SLInv s c) (k : String) :
    ∀ fuel curLevel j a,
      (0 :: c).get? j = some a →
      strLt (sKey s a) k = true →
      curLevel + 1 + ((0 :: c).length - j) ≤ fuel →
      s.searchLoop k fuel curLevel a = some (c.find? fun i => sKey s i = k) := by
  intro fuel
  induction fuel with
  | zero =>
    intro curLevel j a hj _ hf
    have hjlen : j < (0 :: c).length := (List.get?_eq_some.mp hj).1
    omega
  | succ fuel ih =>
    intro curLevel j a hj hk hf
    have hjlen : j < (0 :: c).length := (List.get?_eq_some.mp hj).1
    cases hfwd : (s.node a).getFwd curLevel with
    | none =>
      simp only [SkipList.searchLoop, hfwd]
      by_cases hcl : curLevel = 0
      · subst hcl
        rw [if_pos rfl]
        have hlast : (0 :: c).get? (j + 1) = none := by
          rw [← inv.link0 j a hj, hfwd]
        have hjlast : (0 :: c).length ≤ j + 1 := List.get?_eq_none.mp hlast
        congr 1
        refine (chain_find?_none ?_).symm
        intro i hi hik
        obtain ⟨ji, hji⟩ := List.get?_of_mem (List.mem_cons_of_mem 0 hi)
        have hjile : ji ≤ j := by
          have := (List.get?_eq_some.mp hji).1
          omega
        have hile : strLe (sKey s i) (sKey s a) = true := key_le_of_pos inv hji hj hjile
        have hbad : strLt (sKey s i) k = true := strLt_of_le_of_lt hile hk
        rw [hik, strLt_irrefl] at hbad
        exact Bool.noConfusion hbad
      · rw [if_neg hcl]
        exact ih (curLevel - 1) j a hj hk (by omega)
    | some nid =>
      simp only [SkipList.searchLoop, hfwd]
      obtain ⟨jt, hjtlt, hjt⟩ := inv.edges j a curLevel nid hj hfwd
      have hjtlen : jt < (0 :: c).length := (List.get?_eq_some.mp hjt).1
      cases hle : strLe k (s.node nid).key with
      | true =>
        rw [if_pos rfl]
        by_cases heq : (s.node nid).key = k
        · rw [if_pos heq]
          have hnidc : nid ∈ c := by
            obtain ⟨jtp, rfl⟩ : ∃ jtp, jt = jtp + 1 := ⟨jt - 1, by omega⟩
            exact List.get?_mem hjt
          rw [chain_find?_of_mem inv.sorted hnidc heq]
        · rw [if_neg heq]
          by_cases hcl : curLevel = 0
          · subst hcl
            rw [if_pos rfl]
            have hj1 : (0 :: c).get? (j + 1) = some nid := by
              rw [← inv.link0 j a hj, hfwd]
            have hklt : strLt k (s.node nid).key = true :=
              strLt_of_le_of_ne hle heq
            congr 1
            refine (chain_find?_none ?_).symm
            intro i hi hik
            obtain ⟨ji, hji⟩ := List.get?_of_mem (List.mem_cons_of_mem 0 hi)
            rcases le_or_lt ji j with hle2 | hgt
            · have hile := key_le_of_pos inv hji hj hle2
              have hbad := strLt_of_le_of_lt hile hk
              rw [hik, strLt_irrefl] at hbad
              exact Bool.noConfusion hbad
            · have hnle : strLe (sKey s nid) (sKey s i) = true :=
                key_le_of_pos inv hj1 hji hgt
              have hbad := strLt_of_lt_of_le hklt hnle
              rw [hik, strLt_irrefl] at hbad
              exact Bool.noConfusion hbad
          · rw [if_neg hcl]
            exact ih (curLevel - 1) j a hj hk (by omega)
      | false =>
        rw [if_neg (by simp)]
        have hmv : strLt (sKey s nid) k = true := not_strLe.mp hle
        exact ih curLevel jt nid hjt hmv (by omega)

/-- Under the invariant, `search` computes the chain lookup: for a non-empty
key it returns the id of the chain node with that key, or `none`. -/
theorem search_correct {s : SkipList} {c : List Nat} (inv : SLInv s c) {k : String}
    (hk : k ≠ "") : s.search k = (c.find? fun i => sKey s i = k) := by
  unfold SkipList.search
  have hhead : ¬ (s.node 0).key = k := by
    have := inv.headKey
    unfold sKey at this
    rw [this]
    exact fun h => hk h.symm
  rw [if_neg hhead]
  have hstart : strLt (sKey s 0) k = true := by
    rw [inv.headKey]
    exact strLt_empty hk
  have hfuel : (s.height - 1) + 1 + ((0 :: c).length - 0) ≤ s.searchFuel := by
    unfold SkipList.searchFuel
    have h1 := inv.chainLen
    have h2 := inv.heightPos
    simp only [List.length_cons]
    omega
  rw [searchLoop_correct inv k s.searchFuel (s.height - 1) 0 0 rfl hstart hfuel]
  rfl

/-! ### The fresh skip list satisfies the invariant -/

theorem slinv_new : SLInv newSkipList [] := by
  refine ⟨Nat.one_pos, by simp [newSkipList], rfl, rfl, ?_, ?_, ?_, ?_, ?_⟩
  · intro i hi
    exact absurd hi (List.not_mem_nil i)
  · intro j a hj
    cases j with
    | zero =>
      cases hj
      rfl
    | succ j => exact absurd hj (by simp)
  · intro j a l t hj hfwd
    cases j with
    | zero =>
      cases hj
      exact absurd hfwd (by simp [newSkipList, SkipList.node, SLNode.getFwd, nodeOf])
    | succ j => exact absurd hj (by simp)
  · exact List.Pairwise.nil
  · intro j a l hj hl
    cases j with
    | zero =>
      cases hj
      rfl
    | succ j => exact absurd hj (by simp)

/-! ### The value-overwrite case of upsert -/

theorem node_set_value {s : SkipList} {nid : Nat} (hlt : nid < s.nodes.length)
    (v : List Byte) (i : Nat) :
    SkipList.node { s with nodes := s.nodes.set nid { s.node nid with value := v } } i =
      if i = nid then { s.node nid with value := v } else s.node i := by
  unfold SkipList.node
  by_cases h : i = nid
  · subst h
    rw [if_pos rfl]
    exact getD_set_self _ _ _ _ hlt
  · rw [if_neg h]
    exact getD_set_other _ _ _ _ _ fun hh => h hh.symm

theorem overwrite_inv {s : SkipList} {c : List Nat} (inv : SLInv s c) {nid : Nat}
    (hnid : nid ∈ c) (v : List Byte) :
    SLInv { s with nodes := s.nodes.set nid { s.node nid with value := v } } c := by
  set s2 := { s with nodes := s.nodes.set nid { s.node nid with value := v } } with hs2
  have hlt : nid < s.nodes.length := (inv.chainMem nid hnid).2
  have hne0 : nid ≠ 0 := (inv.chainMem nid hnid).1
  have hfwd : ∀ a l, (s2.node a).getFwd l = (s.node a).getFwd l := by
    intro a l
    rw [node_set_value hlt]
    by_cases h : a = nid
    · subst h
      simp [SLNode.getFwd]
    · rw [if_neg h]
  have hkey : ∀ i, sKey s2 i = sKey s i := by
    intro i
    unfold sKey
    rw [node_set_value hlt]
    by_cases h : i = nid
    · subst h
      simp
    · rw [if_neg h]
  have hlen : s2.nodes.length = s.nodes.length := by
    simp [hs2]
  refine ⟨inv.heightPos, ?_, ?_, ?_, ?_, ?_, ?_, ?_, ?_⟩
  · intro hnil
    have := congrArg List.length hnil
    rw [hlen] at this
    exact inv.nodesNE (List.eq_nil_of_length_eq_zero this)
  · rw [hkey]
    exact inv.headKey
  · unfold sVal
    rw [node_set_value hlt, if_neg (fun hh => hne0 hh.symm)]
    exact inv.headVal
  · intro i hi
    rw [hlen]
    exact inv.chainMem i hi
  · intro j a hj
    rw [hfwd]
    exact inv.link0 j a hj
  · intro j a l t hj hf
    rw [hfwd] at hf
    exact inv.edges j a l t hj hf
  · refine List.Pairwise.imp ?_ inv.sorted
    intro i1 i2 h
    rw [hkey, hkey]
    exact h
  · intro j a l hj hl
    rw [hfwd]
    exact inv.fwdHeight j a l hj hl

theorem overwrite_abs {s : SkipList} {c : List Nat} (inv : SLInv s c) {nid : Nat}
    (hnid : nid ∈ c) (v : List Byte) :
    absMap { s with nodes := s.nodes.set nid { s.node nid with value := v } } c =
      c.map fun i => (sKey s i, if i = nid then v else sVal s i) := by
  have hlt : nid < s.nodes.length := (inv.chainMem nid hnid).2
  unfold absMap
  refine List.map_congr_left ?_
  intro i hi
  unfold sKey sVal
  rw [node_set_value hlt]
  by_cases h : i = nid
  · subst h
    simp
  · simp [h]

/-! ### Abstract-map lemmas -/

theorem absLookup_cons (e : String × List Byte) (l : List (String × List Byte))
    (k : String) :
    absLookup (e :: l) k = if e.1 = k then some e.2 else absLookup l k := by
  by_cases h : e.1 = k
  · simp [absLookup, List.find?, h]
  · simp [absLookup, List.find?, h]

theorem absLookup_absUpsert_self (m : List (String × List Byte)) (k : String)
    (v : List Byte) : absLookup (absUpsert m k v) k = some v := by
  induction m with
  | nil => simp [absUpsert, absLookup_cons, absLookup]
  | cons e rest ih =>
    by_cases h1 : e.1 = k
    · simp [absUpsert, h1, absLookup_cons]
    · by_cases h2 : strLt k e.1 = true
      · simp [absUpsert, h1, h2, absLookup_cons]
      · simp [absUpsert, h1, h2, absLookup_cons, ih]

theorem absLookup_absUpsert_other (m : List (String × List Byte)) (k : String)
    (v : List Byte) (k2 : String) (h : k2 ≠ k) :
    absLookup (absUpsert m k v) k2 = absLookup m k2 := by
  have hkk2 : k ≠ k2 := fun hh => h hh.symm
  induction m with
  | nil => simp [absUpsert, absLookup_cons, absLookup, hkk2]
  | cons e rest ih =>
    by_cases h1 : e.1 = k
    · rw [show absUpsert (e :: rest) k v = (k, v) :: rest from by simp [absUpsert, h1]]
      rw [absLookup_cons, absLookup_cons, if_neg hkk2, if_neg (by rw [h1]; exact hkk2)]
    · by_cases h2 : strLt k e.1 = true
      · rw [show absUpsert (e :: rest) k v = (k, v) :: e :: rest from by
          simp [absUpsert, h1, h2]]
        rw [absLookup_cons, if_neg hkk2]
      · rw [show absUpsert (e :: rest) k v = e :: absUpsert rest k v from by
          simp [absUpsert, h1, h2]]
        rw [absLookup_cons, absLookup_cons, ih]

theorem absLookup_foldl (ws : List (String × List Byte × Nat)) :
    ∀ (m : List (String × List Byte)) (acc : Option (List Byte)) (k : String),
      absLookup m k = acc →
      absLookup (ws.foldl (fun mm w => absUpsert mm w.1 w.2.1) m) k =
        ws.foldl (fun a w => if w.1 = k then some w.2.1 else a) acc := by
  induction ws with
  | nil =>
    intro m acc k h
    exact h
  | cons w rest ih =>
    intro m acc k h
    simp only [List.foldl]
    apply ih
    by_cases hw : w.1 = k
    · subst hw
      simp [absLookup_absUpsert_self]
    · rw [if_neg hw, absLookup_absUpsert_other _ _ _ _ fun hh => hw hh.symm, h]

theorem absUpsert_overwrite {m1 m2 : List (String × List Byte)} {k : String}
    {v w : List Byte} (h1 : ∀ e ∈ m1, strLt e.1 k = true) :
    absUpsert (m1 ++ (k, w) :: m2) k v = m1 ++ (k, v) :: m2 := by
  induction m1 with
  | nil => simp [absUpsert]
  | cons e rest ih =>
    have he := h1 e (by simp)
    have hne : e.1 ≠ k := by
      intro hh
      rw [hh, strLt_irrefl] at he
      exact Bool.noConfusion he
    have hnlt : strLt k e.1 = false := strLt_asymm he
    simp only [List.cons_append, absUpsert, hne, if_false, hnlt, Bool.false_eq_true]
    exact congrArg (e :: ·) (ih fun x hx => h1 x (by simp [hx]))

theorem absUpsert_insert {m1 m2 : List (String × List Byte)} {k : String}
    {v : List Byte} (h1 : ∀ e ∈ m1, strLt e.1 k = true)
    (h2 : ∀ e ∈ m2, strLt k e.1 = true) :
    absUpsert (m1 ++ m2) k v = m1 ++ (k, v) :: m2 := by
  induction m1 with
  | nil =>
    cases m2 with
    | nil => simp [absUpsert]
    | cons e rest =>
      have he := h2 e (by simp)
      have hne : e.1 ≠ k := by
        intro hh
        rw [hh, strLt_irrefl] at he
        exact Bool.noConfusion he
      simp [absUpsert, hne, he]
  | cons e rest ih =>
    have he := h1 e (by simp)
    have hne : e.1 ≠ k := by
      intro hh
      rw [hh, strLt_irrefl] at he
      exact Bool.noConfusion he
    have hnlt : strLt k e.1 = false := strLt_asymm he
    simp only [List.cons_append, absUpsert, hne, if_false, hnlt, Bool.false_eq_true]
    exact congrArg (e :: ·) (ih fun x hx => h1 x (by simp [hx]))

/-! ### The splice performed by insertNewNode -/

theorem nodeOf_set_self (ns : List SLNode) (i : Nat) (x : SLNode) (h : i < ns.length) :
    nodeOf (ns.set i x) i = x :=
  getD_set_self _ _ _ _ h

theorem nodeOf_set_other (ns : List SLNode) (i j : Nat) (x : SLNode) (h : i ≠ j) :
    nodeOf (ns.set i x) j = nodeOf ns j :=
  getD_set_other _ _ _ _ _ h

theorem nodeOf_get? (ns : List SLNode) (i : Nat) (h : i < ns.length) :
    ns.get? i = some (nodeOf ns i) := by
  cases hx : ns.get? i with
  | none => exact absurd (List.get?_eq_none.mp hx) (Nat.not_le.mpr h)
  | some x =>
    have hx2 : ns[i]? = some x := by rw [← List.get?_eq_getElem?]; exact hx
    simp [nodeOf, List.getD, hx2, hx]

theorem slot_shift {α : Type} (a : α) (rest : List α) {l2 level : Nat} (h : level < l2) :
    (a :: rest).get? (l2 - level) = rest.get? (l2 - (level + 1)) := by
  have harith : l2 - level = (l2 - (level + 1)) + 1 := by omega
  rw [harith]
  rfl

theorem spliceGo_spec :
    ∀ (anchors : List (Option Nat)) (level lvl newId : Nat) (ns : List SLNode)
      (nn : SLNode),
    (∀ i b, anchors.get? i = some (some b) → b < ns.length) →
    (spliceGo lvl newId level anchors ns nn).1.length = ns.length ∧
    (∀ i, (nodeOf (spliceGo lvl newId level anchors ns nn).1 i).key = (nodeOf ns i).key ∧
      (nodeOf (spliceGo lvl newId level anchors ns nn).1 i).value = (nodeOf ns i).value) ∧
    (∀ l2 b, level ≤ l2 → l2 ≤ lvl → anchors.get? (l2 - level) = some (some b) →
      (nodeOf (spliceGo lvl newId level anchors ns nn).1 b).getFwd l2 = some newId) ∧
    (∀ i l2, (l2 < level ∨ lvl < l2 ∨ anchors.get? (l2 - level) ≠ some (some i)) →
      (nodeOf (spliceGo lvl newId level anchors ns nn).1 i).getFwd l2 =
        (nodeOf ns i).getFwd l2) ∧
    (spliceGo lvl newId level anchors ns nn).2.key = nn.key ∧
    (spliceGo lvl newId level anchors ns nn).2.value = nn.value ∧
    (∀ l2, (l2 < level ∨ lvl < l2 ∨ anchors.get? (l2 - level) = none ∨
        anchors.get? (l2 - level) = some none) →
      (spliceGo lvl newId level anchors ns nn).2.getFwd l2 = nn.getFwd l2) ∧
    (∀ l2 b, level ≤ l2 → l2 ≤ lvl → anchors.get? (l2 - level) = some (some b) →
      ((nodeOf ns b).getFwd l2 = none →
        (spliceGo lvl newId level anchors ns nn).2.getFwd l2 = nn.getFwd l2) ∧
      (∀ t, (nodeOf ns b).getFwd l2 = some t →
        (spliceGo lvl newId level anchors ns nn).2.getFwd l2 = some t)) := by
  intro anchors
  induction anchors with
  | nil =>
    intro level lvl newId ns nn _
    refine ⟨rfl, fun i => ⟨rfl, rfl⟩, ?_, fun i l2 _ => rfl, rfl, rfl, fun _ _ => rfl, ?_⟩
    · intro l2 b _ _ h
      exact absurd h (by simp)
    · intro l2 b _ _ h
      exact absurd h (by simp)
  | cons a rest ih =>
    intro level lvl newId ns nn hyp
    by_cases hb : lvl < level
    · have hr : spliceGo lvl newId level (a :: rest) ns nn = (ns, nn) := by
        rw [spliceGo.eq_def]
        simp [hb]
      rw [hr]
      refine ⟨rfl, fun i => ⟨rfl, rfl⟩, ?_, fun i l2 _ => rfl, rfl, rfl, fun _ _ => rfl, ?_⟩
      · intro l2 b hge hle _
        omega
      · intro l2 b hge hle _
        omega
    · cases a with
      | none =>
        have hr : spliceGo lvl newId level (none :: rest) ns nn =
            spliceGo lvl newId (level + 1) rest ns nn := by
          rw [spliceGo.eq_def]
          simp [hb]
        rw [hr]
        obtain ⟨ih1, ih2, ih3, ih4, ih5, ih6, ih7, ih8⟩ :=
          ih (level + 1) lvl newId ns nn fun i b h => hyp (i + 1) b h
        refine ⟨ih1, ih2, ?_, ?_, ih5, ih6, ?_, ?_⟩
        · intro l2 b hge hle hslot
          rcases Nat.eq_or_lt_of_le hge with heq | hgt
          · rw [← heq] at hslot
            simp at hslot
          · rw [slot_shift _ _ hgt] at hslot
            exact ih3 l2 b hgt hle hslot
        · intro i l2 hcond
          refine ih4 i l2 ?_
          rcases hcond with h | h | h
          · exact Or.inl (by omega)
          · exact Or.inr (Or.inl h)
          · rcases Nat.lt_or_ge l2 (level + 1) with hlow | hhigh
            · exact Or.inl hlow
            · rw [slot_shift _ _ (by omega : level < l2)] at h
              exact Or.inr (Or.inr h)
        · intro l2 hcond
          refine ih7 l2 ?_
          rcases hcond with h | h | h | h
          · exact Or.inl (by omega)
          · exact Or.inr (Or.inl h)
          · rcases Nat.lt_or_ge l2 (level + 1) with hlow | hhigh
            · exact Or.inl hlow
            · rw [slot_shift _ _ (by omega : level < l2)] at h
              exact Or.inr (Or.inr (Or.inl h))
          · rcases Nat.lt_or_ge l2 (level + 1) with hlow | hhigh
            · exact Or.inl hlow
            · rw [slot_shift _ _ (by omega : level < l2)] at h
              exact Or.inr (Or.inr (Or.inr h))
        · intro l2 b hge hle hslot
          rcases Nat.eq_or_lt_of_le hge with heq | hgt
          · rw [← heq] at hslot
            simp at hslot
          · rw [slot_shift _ _ hgt] at hslot
            exact ih8 l2 b hgt hle hslot
      | some aid =>
        have haid : aid < ns.length := hyp 0 aid rfl
        have hget := nodeOf_get? ns aid haid
        cases hold : (nodeOf ns aid).getFwd level with
        | none =>
          have hr : spliceGo lvl newId level (some aid :: rest) ns nn =
              spliceGo lvl newId (level + 1) rest
                (ns.set aid ((nodeOf ns aid).setFwd level newId)) nn := by
            have hget2 : ns[aid]? = some (nodeOf ns aid) := by
              rw [← List.get?_eq_getElem?]
              exact hget
            rw [spliceGo.eq_def]
            simp [hb, hget2, hold]
          rw [hr]
          have hlen1 : (ns.set aid ((nodeOf ns aid).setFwd level newId)).length =
              ns.length := by simp
          obtain ⟨ih1, ih2, ih3, ih4, ih5, ih6, ih7, ih8⟩ :=
            ih (level + 1) lvl newId (ns.set aid ((nodeOf ns aid).setFwd level newId)) nn
              fun i b h => hlen1 ▸ hyp (i + 1) b h
          have F1 : ∀ i,
              (nodeOf (ns.set aid ((nodeOf ns aid).setFwd level newId)) i).key =
                (nodeOf ns i).key ∧
              (nodeOf (ns.set aid ((nodeOf ns aid).setFwd level newId)) i).value =
                (nodeOf ns i).value := by
            intro i
            by_cases h : aid = i
            · subst h
              rw [nodeOf_set_self _ _ _ haid]
              exact ⟨rfl, rfl⟩
            · rw [nodeOf_set_other _ _ _ _ h]
              exact ⟨rfl, rfl⟩
          have F2 : ∀ i l2, l2 ≠ level →
              (nodeOf (ns.set aid ((nodeOf ns aid).setFwd level newId)) i).getFwd l2 =
                (nodeOf ns i).getFwd l2 := by
            intro i l2 hne
            by_cases h : aid = i
            · subst h
              rw [nodeOf_set_self _ _ _ haid]
              exact getFwd_setFwd_other _ _ _ _ hne
            · rw [nodeOf_set_other _ _ _ _ h]
          have F3 : (nodeOf (ns.set aid ((nodeOf ns aid).setFwd level newId)) aid).getFwd
              level = some newId := by
            rw [nodeOf_set_self _ _ _ haid]
            exact getFwd_setFwd_self _ _ _
          have F4 : ∀ i, i ≠ aid →
              (nodeOf (ns.set aid ((nodeOf ns aid).setFwd level newId)) i).getFwd level =
                (nodeOf ns i).getFwd level := by
            intro i hne
            rw [nodeOf_set_other _ _ _ _ fun hh => hne hh.symm]
          refine ⟨ih1.trans hlen1, ?_, ?_, ?_, ih5, ih6, ?_, ?_⟩
          · intro i
            exact ⟨(ih2 i).1.trans (F1 i).1, (ih2 i).2.trans (F1 i).2⟩
          · intro l2 b hge hle hslot
            rcases Nat.eq_or_lt_of_le hge with heq | hgt
            · rw [← heq] at hslot ⊢
              have hbaid : b = aid := by
                simp at hslot
                exact hslot.symm
              subst hbaid
              rw [ih4 b level (Or.inl (by omega))]
              exact F3
            · rw [slot_shift _ _ hgt] at hslot
              exact ih3 l2 b hgt hle hslot
          · intro i l2 hcond
            rcases hcond with h | h | h
            · rw [ih4 i l2 (Or.inl (by omega))]
              exact F2 i l2 (by omega)
            · rw [ih4 i l2 (Or.inr (Or.inl h))]
              exact F2 i l2 (by omega)
            · rcases Nat.lt_or_ge l2 level with hlow | hhigh
              · rw [ih4 i l2 (Or.inl (by omega))]
                exact F2 i l2 (by omega)
              · rcases Nat.eq_or_lt_of_le hhigh with heq | hgt
                · rw [← heq] at h ⊢
                  have hne : i ≠ aid := by
                    intro hh
                    subst hh
                    simp at h
                  rw [ih4 i level (Or.inl (by omega))]
                  exact F4 i hne
                · rw [slot_shift _ _ hgt] at h
                  rw [ih4 i l2 (Or.inr (Or.inr h))]
                  exact F2 i l2 (by omega)
          · intro l2 hcond
            rcases hcond with h | h | h | h
            · exact ih7 l2 (Or.inl (by omega))
            · exact ih7 l2 (Or.inr (Or.inl h))
            · rcases Nat.lt_or_ge l2 level with hlow | hhigh
              · exact ih7 l2 (Or.inl (by omega))
              · rcases Nat.eq_or_lt_of_le hhigh with heq | hgt
                · rw [← heq] at h
                  simp at h
                · rw [slot_shift _ _ hgt] at h
                  exact ih7 l2 (Or.inr (Or.inr (Or.inl h)))
            · rcases Nat.lt_or_ge l2 level with hlow | hhigh
              · exact ih7 l2 (Or.inl (by omega))
              · rcases Nat.eq_or_lt_of_le hhigh with heq | hgt
                · exact ih7 l2 (Or.inl (by omega))
                · rw [slot_shift _ _ hgt] at h
                  exact ih7 l2 (Or.inr (Or.inr (Or.inr h)))
          · intro l2 b hge hle hslot
            rcases Nat.eq_or_lt_of_le hge with heq | hgt
            · rw [← heq] at hslot ⊢
              have hbaid : b = aid := by
                simp at hslot
                exact hslot.symm
              subst hbaid
              constructor
              · intro _
                exact ih7 level (Or.inl (by omega))
              · intro t ht
                rw [hold] at ht
                exact Option.noConfusion ht
            · rw [slot_shift _ _ hgt] at hslot
              obtain ⟨ihn, ihs⟩ := ih8 l2 b hgt hle hslot
              constructor
              · intro hnone
                exact ihn (by rw [F2 b l2 (by omega)]; exact hnone)
              · intro t ht
                exact ihs t (by rw [F2 b l2 (by omega)]; exact ht)
        | some t0 =>
          have hr : spliceGo lvl newId level (some aid :: rest) ns nn =
              spliceGo lvl newId (level + 1) rest
                (ns.set aid ((nodeOf ns aid).setFwd level newId))
                (nn.setFwd level t0) := by
            have hget2 : ns[aid]? = some (nodeOf ns aid) := by
              rw [← List.get?_eq_getElem?]
              exact hget
            rw [spliceGo.eq_def]
            simp [hb, hget2, hold]
          rw [hr]
          have hlen1 : (ns.set aid ((nodeOf ns aid).setFwd level newId)).length =
              ns.length := by simp
          obtain ⟨ih1, ih2, ih3, ih4, ih5, ih6, ih7, ih8⟩ :=
            ih (level + 1) lvl newId (ns.set aid ((nodeOf ns aid).setFwd level newId))
              (nn.setFwd level t0) fun i b h => hlen1 ▸ hyp (i + 1) b h
          have F1 : ∀ i,
              (nodeOf (ns.set aid ((nodeOf ns aid).setFwd level newId)) i).key =
                (nodeOf ns i).key ∧
              (nodeOf (ns.set aid ((nodeOf ns aid).setFwd level newId)) i).value =
                (nodeOf ns i).value := by
            intro i
            by_cases h : aid = i
            · subst h
              rw [nodeOf_set_self _ _ _ haid]
              exact ⟨rfl, rfl⟩
            · rw [nodeOf_set_other _ _ _ _ h]
              exact ⟨rfl, rfl⟩
          have F2 : ∀ i l2, l2 ≠ level →
              (nodeOf (ns.set aid ((nodeOf ns aid).setFwd level newId)) i).getFwd l2 =
                (nodeOf ns i).getFwd l2 := by
            intro i l2 hne
            by_cases h : aid = i
            · subst h
              rw [nodeOf_set_self _ _ _ haid]
              exact getFwd_setFwd_other _ _ _ _ hne
            · rw [nodeOf_set_other _ _ _ _ h]
          have F3 : (nodeOf (ns.set aid ((nodeOf ns aid).setFwd level newId)) aid).getFwd
              level = some newId := by
            rw [nodeOf_set_self _ _ _ haid]
            exact getFwd_setFwd_self _ _ _
          have F4 : ∀ i, i ≠ aid →
              (nodeOf (ns.set aid ((nodeOf ns aid).setFwd level newId)) i).getFwd level =
                (nodeOf ns i).getFwd level := by
            intro i hne
            rw [nodeOf_set_other _ _ _ _ fun hh => hne hh.symm]
          have F5a : ∀ l2, l2 ≠ level → (nn.setFwd level t0).getFwd l2 = nn.getFwd l2 :=
            fun l2 hne => getFwd_setFwd_other _ _ _ _ hne
          have F5b : (nn.setFwd level t0).getFwd level = some t0 :=
            getFwd_setFwd_self _ _ _
          refine ⟨ih1.trans hlen1, ?_, ?_, ?_,
            ih5.trans (setFwd_key _ _ _), ih6.trans (setFwd_value _ _ _), ?_, ?_⟩
          · intro i
            exact ⟨(ih2 i).1.trans (F1 i).1, (ih2 i).2.trans (F1 i).2⟩
          · intro l2 b hge hle hslot
            rcases Nat.eq_or_lt_of_le hge with heq | hgt
            · rw [← heq] at hslot ⊢
              have hbaid : b = aid := by
                simp at hslot
                exact hslot.symm
              subst hbaid
              rw [ih4 b level (Or.inl (by omega))]
              exact F3
            · rw [slot_shift _ _ hgt] at hslot
              exact ih3 l2 b hgt hle hslot
          · intro i l2 hcond
            rcases hcond with h | h | h
            · rw [ih4 i l2 (Or.inl (by omega))]
              exact F2 i l2 (by omega)
            · rw [ih4 i l2 (Or.inr (Or.inl h))]
              exact F2 i l2 (by omega)
            · rcases Nat.lt_or_ge l2 level with hlow | hhigh
              · rw [ih4 i l2 (Or.inl (by omega))]
                exact F2 i l2 (by omega)
              · rcases Nat.eq_or_lt_of_le hhigh with heq | hgt
                · rw [← heq] at h ⊢
                  have hne : i ≠ aid := by
                    intro hh
                    subst hh
                    simp at h
                  rw [ih4 i level (Or.inl (by omega))]
                  exact F4 i hne
                · rw [slot_shift _ _ hgt] at h
                  rw [ih4 i l2 (Or.inr (Or.inr h))]
                  exact F2 i l2 (by omega)
          · intro l2 hcond
            rcases hcond with h | h | h | h
            · rw [ih7 l2 (Or.inl (by omega))]
              exact F5a l2 (by omega)
            · rw [ih7 l2 (Or.inr (Or.inl h))]
              exact F5a l2 (by omega)
            · rcases Nat.lt_or_ge l2 level with hlow | hhigh
              · rw [ih7 l2 (Or.inl (by omega))]
                exact F5a l2 (by omega)
              · rcases Nat.eq_or_lt_of_le hhigh with heq | hgt
                · rw [← heq] at h
                  simp at h
                · rw [slot_shift _ _ hgt] at h
                  rw [ih7 l2 (Or.inr (Or.inr (Or.inl h)))]
                  exact F5a l2 (by omega)
            · rcases Nat.lt_or_ge l2 level with hlow | hhigh
              · rw [ih7 l2 (Or.inl (by omega))]
                exact F5a l2 (by omega)
              · rcases Nat.eq_or_lt_of_le hhigh with heq | hgt
                · rw [← heq] at h
                  simp at h
                · rw [slot_shift _ _ hgt] at h
                  rw [ih7 l2 (Or.inr (Or.inr (Or.inr h)))]
                  exact F5a l2 (by omega)
          · intro l2 b hge hle hslot
            rcases Nat.eq_or_lt_of_le hge with heq | hgt
            · rw [← heq] at hslot ⊢
              have hbaid : b = aid := by
                simp at hslot
                exact hslot.symm
              subst hbaid
              constructor
              · intro hnone
                rw [hold] at hnone
                exact Option.noConfusion hnone
              · intro t ht
                rw [hold] at ht
                have htt : t0 = t := Option.some_inj.mp ht
                rw [ih7 level (Or.inl (by omega)), F5b, htt]
            · rw [slot_shift _ _ hgt] at hslot
              obtain ⟨ihn, ihs⟩ := ih8 l2 b hgt hle hslot
              constructor
              · intro hnone
                rw [ihn (by rw [F2 b l2 (by omega)]; exact hnone)]
                exact F5a l2 (by omega)
              · intro t ht
                exact ihs t (by rw [F2 b l2 (by omega)]; exact ht)

/-! ### Inserting a new node -/

theorem get?_set_self {α : Type} (l : List α) (i : Nat) (x : α) (h : i < l.length) :
    (l.set i x).get? i = some x := by
  simp [List.get?_eq_getElem?, List.getElem?_set_self', List.getElem?_eq_getElem h]

theorem get?_set_other {α : Type} (l : List α) (i p : Nat) (x : α) (h : i ≠ p) :
    (l.set i x).get? p = l.get? p := by
  rw [List.get?_eq_getElem?, List.getElem?_set_ne h, ← List.get?_eq_getElem?]

theorem nodeOf_append_lt (ns : List SLNode) (x : SLNode) (i : Nat) (h : i < ns.length) :
    nodeOf (ns ++ [x]) i = nodeOf ns i := by
  unfold nodeOf
  exact List.getD_append _ _ _ _ h

theorem nodeOf_append_last (ns : List SLNode) (x : SLNode) :
    nodeOf (ns ++ [x]) ns.length = x := by
  unfold nodeOf
  rw [List.getD_append_right _ _ _ _ le_rfl, Nat.sub_self]
  rfl

theorem getFwd_mk_nil (ky : String) (vl : List Byte) (l : Nat) :
    SLNode.getFwd ⟨ky, vl, []⟩ l = none := by
  simp [SLNode.getFwd]

theorem insertAt_get?_low {α : Type} (o : List α) (x : α) (j p : Nat) (hj : j < o.length)
    (hp : p ≤ j) : (o.take (j + 1) ++ x :: o.drop (j + 1)).get? p = o.get? p := by
  have hlen : (o.take (j + 1)).length = j + 1 := by
    rw [List.length_take]
    omega
  rw [List.get?_append (by omega), List.get?_take (by omega)]

theorem insertAt_get?_mid {α : Type} (o : List α) (x : α) (j : Nat) (hj : j < o.length) :
    (o.take (j + 1) ++ x :: o.drop (j + 1)).get? (j + 1) = some x := by
  have hlen : (o.take (j + 1)).length = j + 1 := by
    rw [List.length_take]
    omega
  rw [List.get?_append_right (by omega), hlen, Nat.sub_self]
  rfl

theorem insertAt_get?_high {α : Type} (o : List α) (x : α) (j p : Nat) (hj : j < o.length)
    (hp : j + 1 < p) : (o.take (j + 1) ++ x :: o.drop (j + 1)).get? p = o.get? (p - 1) := by
  have hlen : (o.take (j + 1)).length = j + 1 := by
    rw [List.length_take]
    omega
  rw [List.get?_append_right (by omega), hlen]
  have h2 : p - (j + 1) = (p - (j + 2)) + 1 := by omega
  rw [h2, List.get?_cons_succ, List.get?_drop]
  congr 1
  omega

theorem mem_take_pos {α : Type} {c : List α} {j : Nat} {x : α} (h : x ∈ c.take j) :
    ∃ idx, idx < j ∧ c.get? idx = some x := by
  obtain ⟨n, hn⟩ := List.get?_of_mem h
  have hlt : n < (c.take j).length := (List.get?_eq_some.mp hn).1
  rw [List.length_take] at hlt
  have hnj : n < j := lt_of_lt_of_le hlt (min_le_left _ _)
  rw [List.get?_take hnj] at hn
  exact ⟨n, hnj, hn⟩

theorem mem_drop_pos {α : Type} {c : List α} {j : Nat} {x : α} (h : x ∈ c.drop j) :
    ∃ idx, c.get? (j + idx) = some x := by
  obtain ⟨n, hn⟩ := List.get?_of_mem h
  rw [List.get?_drop] at hn
  exact ⟨n, hn⟩

/-- The effect of the splice-and-append step shared by both branches of
`insertNewNode`: given correct anchors for an absent key `k`, the new node
store satisfies the invariant on the chain with the new node inserted after
position `j`, and the abstraction is exactly `absUpsert`. -/
theorem splice_insert_spec {s : SkipList} {c : List Nat} (inv : SLInv s c)
    {k : String} {v : List Byte} (hk : k ≠ "")
    (lvl height2 : Nat) (anchors : List (Option Nat)) {b0 j : Nat}
    (hA0 : anchors.get? 0 = some (some b0))
    (hj : (0 :: c).get? j = some b0)
    (hAOK : ∀ l b, anchors.get? l = some (some b) → anchorAt s c k l b)
    (hge : s.height ≤ height2) (hlvl : lvl < height2) :
    SLInv ⟨(spliceGo lvl s.nodes.length 0 anchors s.nodes ⟨k, v, []⟩).1 ++
        [(spliceGo lvl s.nodes.length 0 anchors s.nodes ⟨k, v, []⟩).2],
        height2, s.size + 1⟩
      (c.take j ++ s.nodes.length :: c.drop j) ∧
    absMap ⟨(spliceGo lvl s.nodes.length 0 anchors s.nodes ⟨k, v, []⟩).1 ++
        [(spliceGo lvl s.nodes.length 0 anchors s.nodes ⟨k, v, []⟩).2],
        height2, s.size + 1⟩
      (c.take j ++ s.nodes.length :: c.drop j) = absUpsert (absMap s c) k v := by
  have hlen0 : 0 < s.nodes.length := List.length_pos.mpr inv.nodesNE
  have hposlt : ∀ jb b, (0 :: c).get? jb = some b → b < s.nodes.length := by
    intro jb b h
    cases jb with
    | zero =>
      cases h
      exact hlen0
    | succ n => exact (inv.chainMem b (List.get?_mem h)).2
  have hbound : ∀ i b, anchors.get? i = some (some b) → b < s.nodes.length := by
    intro i b h
    obtain ⟨⟨jb, hjb⟩, _, _⟩ := hAOK i b h
    exact hposlt jb b hjb
  obtain ⟨P1, P2, P3, P4, P5, P6, P7, P8⟩ :=
    spliceGo_spec anchors 0 lvl s.nodes.length s.nodes ⟨k, v, []⟩ hbound
  set r1 := (spliceGo lvl s.nodes.length 0 anchors s.nodes ⟨k, v, []⟩).1 with hr1def
  set r2 := (spliceGo lvl s.nodes.length 0 anchors s.nodes ⟨k, v, []⟩).2 with hr2def
  set s2 : SkipList := ⟨r1 ++ [r2], height2, s.size + 1⟩ with hs2def
  have hr1len : r1.length = s.nodes.length := P1
  have hjlt : j < (0 :: c).length := (List.get?_eq_some.mp hj).1
  have hjle : j ≤ c.length := by
    have : j < c.length + 1 := by simpa using hjlt
    omega
  have hg1 : ∀ p, p ≤ j →
      (0 :: (c.take j ++ s.nodes.length :: c.drop j)).get? p = (0 :: c).get? p := by
    intro p hp
    exact insertAt_get?_low (0 :: c) s.nodes.length j p hjlt hp
  have hg2 : (0 :: (c.take j ++ s.nodes.length :: c.drop j)).get? (j + 1) =
      some s.nodes.length :=
    insertAt_get?_mid (0 :: c) s.nodes.length j hjlt
  have hg3 : ∀ p, j + 1 < p →
      (0 :: (c.take j ++ s.nodes.length :: c.drop j)).get? p = (0 :: c).get? (p - 1) := by
    intro p hp
    exact insertAt_get?_high (0 :: c) s.nodes.length j p hjlt hp
  have hnode2_old : ∀ i, i < s.nodes.length → s2.node i = nodeOf r1 i := by
    intro i hi
    show nodeOf (r1 ++ [r2]) i = nodeOf r1 i
    exact nodeOf_append_lt r1 r2 i (by omega)
  have hnode2_new : s2.node s.nodes.length = r2 := by
    have h := nodeOf_append_last r1 r2
    rw [hr1len] at h
    exact h
  have hkey_old : ∀ i, i < s.nodes.length → sKey s2 i = sKey s i := by
    intro i hi
    show (s2.node i).key = (s.node i).key
    rw [hnode2_old i hi]
    exact (P2 i).1
  have hval_old : ∀ i, i < s.nodes.length → sVal s2 i = sVal s i := by
    intro i hi
    show (s2.node i).value = (s.node i).value
    rw [hnode2_old i hi]
    exact (P2 i).2
  have hkey_new : sKey s2 s.nodes.length = k := by
    show (s2.node s.nodes.length).key = k
    rw [hnode2_new]
    exact P5
  have hval_new : sVal s2 s.nodes.length = v := by
    show (s2.node s.nodes.length).value = v
    rw [hnode2_new]
    exact P6
  have hfwd2_old : ∀ i l, i < s.nodes.length →
      (s2.node i).getFwd l = (nodeOf r1 i).getFwd l := by
    intro i l hi
    rw [hnode2_old i hi]
  have hfwd2_new : ∀ l, (s2.node s.nodes.length).getFwd l = r2.getFwd l := by
    intro l
    rw [hnode2_new]
  have hb0k : strLt (sKey s b0) k = true := (hAOK 0 b0 hA0).2.1
  have hlow : ∀ p a, p ≤ j → (0 :: c).get? p = some a → strLt (sKey s a) k = true := by
    intro p a hp ha
    exact strLt_of_le_of_lt (key_le_of_pos inv ha hj hp) hb0k
  have hnext := (hAOK 0 b0 hA0).2.2
  have hhigh : ∀ p a, j + 1 ≤ p → (0 :: c).get? p = some a →
      strLt k (sKey s a) = true := by
    intro p a hp ha
    rcases hnext with hnone | ⟨t, ht, hkt⟩
    · have h1 : (0 :: c).get? (j + 1) = none := by rw [← inv.link0 j b0 hj, hnone]
      have h2 : (0 :: c).length ≤ j + 1 := List.get?_eq_none.mp h1
      have h3 : (0 :: c).get? p = none := List.get?_eq_none.mpr (by omega)
      rw [h3] at ha
      exact Option.noConfusion ha
    · have h1 : (0 :: c).get? (j + 1) = some t := by rw [← inv.link0 j b0 hj, ht]
      exact strLt_of_lt_of_le hkt (key_le_of_pos inv h1 ha hp)
  have hpos : ∀ p a, (0 :: (c.take j ++ s.nodes.length :: c.drop j)).get? p = some a →
      (p ≤ j ∧ (0 :: c).get? p = some a) ∨ (p = j + 1 ∧ a = s.nodes.length) ∨
      (j + 1 < p ∧ (0 :: c).get? (p - 1) = some a) := by
    intro p a hp
    rcases Nat.lt_trichotomy p (j + 1) with h | h | h
    · refine Or.inl ⟨by omega, ?_⟩
      rw [← hg1 p (by omega)]
      exact hp
    · subst h
      rw [hg2] at hp
      exact Or.inr (Or.inl ⟨rfl, (Option.some_inj.mp hp).symm⟩)
    · refine Or.inr (Or.inr ⟨h, ?_⟩)
      rw [← hg3 p h]
      exact hp
  have hclen : (c.take j ++ s.nodes.length :: c.drop j).length = c.length + 1 := by
    rw [List.length_append, List.length_take, List.length_cons, List.length_drop,
      Nat.min_eq_left hjle]
    omega
  have hs2len : s2.nodes.length = s.nodes.length + 1 := by
    show (r1 ++ [r2]).length = s.nodes.length + 1
    rw [List.length_append, hr1len]
    rfl
  refine ⟨⟨?_, ?_, ?_, ?_, ?_, ?_, ?_, ?_, ?_⟩, ?_⟩
  · exact lt_of_lt_of_le inv.heightPos hge
  · show r1 ++ [r2] ≠ []
    simp
  · exact (hkey_old 0 hlen0).trans inv.headKey
  · exact (hval_old 0 hlen0).trans inv.headVal
  · intro i hi
    rw [hs2len]
    rcases List.mem_append.mp hi with h1 | h2
    · obtain ⟨idx, hlt2, hidx⟩ := mem_take_pos h1
      have hm : i ∈ c := List.get?_mem hidx
      have := inv.chainMem i hm
      exact ⟨this.1, by omega⟩
    · rcases List.mem_cons.mp h2 with rfl | h3
      · exact ⟨by omega, by omega⟩
      · obtain ⟨idx, hidx⟩ := mem_drop_pos h3
        have hm : i ∈ c := List.get?_mem hidx
        have := inv.chainMem i hm
        exact ⟨this.1, by omega⟩
  · -- link0
    intro p a hp
    rcases hpos p a hp with ⟨hpj, hpa⟩ | ⟨rfl, rfl⟩ | ⟨hpj, hpa⟩
    · have halt := hposlt p a hpa
      by_cases hab : a = b0
      · subst hab
        have hpj2 : p = j := pos_unique inv.chainNodup hpa hj
        subst hpj2
        rw [hfwd2_old a 0 halt, P3 0 a (Nat.zero_le _) (Nat.zero_le _) hA0]
        exact hg2.symm
      · have hna : anchors.get? 0 ≠ some (some a) := by
          rw [hA0]
          intro hcontra
          exact hab (Option.some_inj.mp (Option.some_inj.mp hcontra)).symm
        rw [hfwd2_old a 0 halt, P4 a 0 (Or.inr (Or.inr hna))]
        show (s.node a).getFwd 0 = _
        rw [inv.link0 p a hpa]
        have hpj3 : p ≠ j := by
          intro hcontra
          subst hcontra
          rw [hpa] at hj
          exact hab (Option.some_inj.mp hj)
        exact (hg1 (p + 1) (by omega)).symm
    · rw [hfwd2_new 0]
      rcases hnext with hnone | ⟨t, ht, hkt⟩
      · rw [(P8 0 b0 (Nat.zero_le _) (Nat.zero_le _) hA0).1 hnone, getFwd_mk_nil]
        have hnone2 : (0 :: c).get? (j + 1) = none := by rw [← inv.link0 j b0 hj, hnone]
        have h2 : (0 :: c).length ≤ j + 1 := List.get?_eq_none.mp hnone2
        have h2' : c.length ≤ j := by
          have : c.length + 1 ≤ j + 1 := by simpa using h2
          omega
        refine (List.get?_eq_none.mpr ?_).symm
        simp only [List.length_cons, hclen]
        omega
      · rw [(P8 0 b0 (Nat.zero_le _) (Nat.zero_le _) hA0).2 t ht]
        have h1 : (0 :: c).get? (j + 1) = some t := by rw [← inv.link0 j b0 hj, ht]
        rw [hg3 (j + 2) (by omega)]
        exact h1.symm
    · have halt := hposlt (p - 1) a hpa
      have hab : a ≠ b0 := by
        intro hcontra
        subst hcontra
        have := pos_unique inv.chainNodup hpa hj
        omega
      have hna : anchors.get? 0 ≠ some (some a) := by
        rw [hA0]
        intro hcontra
        exact hab (Option.some_inj.mp (Option.some_inj.mp hcontra)).symm
      rw [hfwd2_old a 0 halt, P4 a 0 (Or.inr (Or.inr hna))]
      show (s.node a).getFwd 0 = _
      rw [inv.link0 (p - 1) a hpa, hg3 (p + 1) (by omega)]
      congr 1
      omega
  · -- edges
    intro p a l t hp hf
    rcases hpos p a hp with ⟨hpj, hpa⟩ | ⟨rfl, rfl⟩ | ⟨hpj, hpa⟩
    · have halt := hposlt p a hpa
      by_cases hanch : l ≤ lvl ∧ anchors.get? l = some (some a)
      · have h3 := P3 l a (Nat.zero_le _) hanch.1 hanch.2
        rw [hfwd2_old a l halt, h3] at hf
        obtain rfl : t = s.nodes.length := (Option.some_inj.mp hf).symm
        exact ⟨j + 1, by omega, hg2⟩
      · have hcond : l < 0 ∨ lvl < l ∨ anchors.get? l ≠ some (some a) := by
          rcases le_or_lt l lvl with h1 | h1
          · refine Or.inr (Or.inr ?_)
            intro hcontra
            exact hanch ⟨h1, hcontra⟩
          · exact Or.inr (Or.inl h1)
        rw [hfwd2_old a l halt, P4 a l hcond] at hf
        obtain ⟨qt, hqlt, hqt⟩ := inv.edges p a l t hpa hf
        rcases le_or_lt qt j with hqtj | hqtj
        · exact ⟨qt, by omega, by rw [hg1 qt hqtj]; exact hqt⟩
        · exact ⟨qt + 1, by omega, by rw [hg3 (qt + 1) (by omega)]; exact hqt⟩
    · rw [hfwd2_new l] at hf
      by_cases hl : lvl < l
      · rw [P7 l (Or.inr (Or.inl hl)), getFwd_mk_nil] at hf
        exact Option.noConfusion hf
      · cases hgl : anchors.get? l with
        | none =>
          rw [P7 l (Or.inr (Or.inr (Or.inl hgl))), getFwd_mk_nil] at hf
          exact Option.noConfusion hf
        | some oa =>
          cases oa with
          | none =>
            rw [P7 l (Or.inr (Or.inr (Or.inr hgl))), getFwd_mk_nil] at hf
            exact Option.noConfusion hf
          | some b =>
            obtain ⟨⟨jb, hjb⟩, hkb, hfb⟩ := hAOK l b hgl
            have h8 := P8 l b (Nat.zero_le _) (le_of_not_lt hl) hgl
            rcases hfb with hnone | ⟨t0, ht0, hkt0⟩
            · rw [h8.1 hnone, getFwd_mk_nil] at hf
              exact Option.noConfusion hf
            · rw [h8.2 t0 ht0] at hf
              obtain rfl : t0 = t := Option.some_inj.mp hf
              obtain ⟨qt, hqlt, hqt⟩ := inv.edges jb b l t0 hjb ht0
              have hqtj : j + 1 ≤ qt := by
                by_contra hcontra
                push_neg at hcontra
                have hbad := hlow qt t0 (by omega) hqt
                rw [strLt_asymm hbad] at hkt0
                exact Bool.noConfusion hkt0
              exact ⟨qt + 1, by omega, by rw [hg3 (qt + 1) (by omega)]; exact hqt⟩
    · have halt := hposlt (p - 1) a hpa
      by_cases hanch : l ≤ lvl ∧ anchors.get? l = some (some a)
      · have hka := (hAOK l a hanch.2).2.1
        have hbad := hhigh (p - 1) a (by omega) hpa
        rw [strLt_asymm hka] at hbad
        exact Bool.noConfusion hbad
      · have hcond : l < 0 ∨ lvl < l ∨ anchors.get? l ≠ some (some a) := by
          rcases le_or_lt l lvl with h1 | h1
          · refine Or.inr (Or.inr ?_)
            intro hcontra
            exact hanch ⟨h1, hcontra⟩
          · exact Or.inr (Or.inl h1)
        rw [hfwd2_old a l halt, P4 a l hcond] at hf
        obtain ⟨qt, hqlt, hqt⟩ := inv.edges (p - 1) a l t hpa hf
        have hqtj : j < qt := by omega
        exact ⟨qt + 1, by omega, by rw [hg3 (qt + 1) (by omega)]; exact hqt⟩
  · -- sorted
    rw [List.pairwise_append]
    refine ⟨?_, ?_, ?_⟩
    · have base : (c.take j).Pairwise fun i1 i2 => strLt (sKey s i1) (sKey s i2) = true :=
        inv.sorted.sublist (List.take_sublist j c)
      refine base.imp_of_mem ?_
      intro a b ha hb hab
      obtain ⟨ia, _, hia⟩ := mem_take_pos ha
      obtain ⟨ib, _, hib⟩ := mem_take_pos hb
      rw [hkey_old a (hposlt (ia + 1) a hia), hkey_old b (hposlt (ib + 1) b hib)]
      exact hab
    · rw [List.pairwise_cons]
      constructor
      · intro i hi
        obtain ⟨idx, hidx⟩ := mem_drop_pos hi
        have hoi : (0 :: c).get? (j + idx + 1) = some i := hidx
        rw [hkey_new, hkey_old i (hposlt (j + idx + 1) i hoi)]
        exact hhigh (j + idx + 1) i (by omega) hoi
      · have base : (c.drop j).Pairwise fun i1 i2 => strLt (sKey s i1) (sKey s i2) = true :=
          inv.sorted.sublist (List.drop_sublist j c)
        refine base.imp_of_mem ?_
        intro a b ha hb hab
        obtain ⟨ia, hia⟩ := mem_drop_pos ha
        obtain ⟨ib, hib⟩ := mem_drop_pos hb
        rw [hkey_old a (hposlt (j + ia + 1) a hia), hkey_old b (hposlt (j + ib + 1) b hib)]
        exact hab
    · intro x hx y hy
      obtain ⟨ix, hixlt, hix⟩ := mem_take_pos hx
      have hox : (0 :: c).get? (ix + 1) = some x := hix
      have hxk : strLt (sKey s x) k = true := hlow (ix + 1) x (by omega) hox
      rcases List.mem_cons.mp hy with rfl | hy2
      · rw [hkey_old x (hposlt (ix + 1) x hox), hkey_new]
        exact hxk
      · obtain ⟨iy, hiy⟩ := mem_drop_pos hy2
        have hoy : (0 :: c).get? (j + iy + 1) = some y := hiy
        rw [hkey_old x (hposlt (ix + 1) x hox), hkey_old y (hposlt (j + iy + 1) y hoy)]
        exact key_lt_of_pos inv hox hoy (by omega) (by omega)
  · -- fwdHeight
    intro p a l hp hl
    have hl2 : height2 ≤ l := hl
    rcases hpos p a hp with ⟨hpj, hpa⟩ | ⟨rfl, rfl⟩ | ⟨hpj, hpa⟩
    · rw [hfwd2_old a l (hposlt p a hpa), P4 a l (Or.inr (Or.inl (by omega)))]
      exact inv.fwdHeight p a l hpa (by omega)
    · rw [hfwd2_new l, P7 l (Or.inr (Or.inl (by omega))), getFwd_mk_nil]
    · rw [hfwd2_old a l (hposlt (p - 1) a hpa), P4 a l (Or.inr (Or.inl (by omega)))]
      exact inv.fwdHeight (p - 1) a l hpa (by omega)
  · -- abstraction
    have habs : absUpsert (absMap s c) k v =
        (c.take j).map (fun i => (sKey s i, sVal s i)) ++ (k, v) ::
          (c.drop j).map fun i => (sKey s i, sVal s i) := by
      have hsplit : absMap s c = (c.take j).map (fun i => (sKey s i, sVal s i)) ++
          (c.drop j).map fun i => (sKey s i, sVal s i) := by
        unfold absMap
        rw [← List.map_append, List.take_append_drop]
      rw [hsplit]
      refine absUpsert_insert ?_ ?_
      · intro e he
        obtain ⟨i, hi, rfl⟩ := List.mem_map.mp he
        obtain ⟨idx, hlt2, hidx⟩ := mem_take_pos hi
        exact hlow (idx + 1) i (by omega) hidx
      · intro e he
        obtain ⟨i, hi, rfl⟩ := List.mem_map.mp he
        obtain ⟨idx, hidx⟩ := mem_drop_pos hi
        exact hhigh (j + idx + 1) i (by omega) hidx
    rw [habs]
    show (c.take j ++ s.nodes.length :: c.drop j).map
        (fun i => (sKey s2 i, sVal s2 i)) = _
    rw [List.map_append, List.map_cons]
    congr 1
    · refine List.map_congr_left ?_
      intro i hi
      obtain ⟨idx, hlt2, hidx⟩ := mem_take_pos hi
      have hilt := hposlt (idx + 1) i hidx
      rw [hkey_old i hilt, hval_old i hilt]
    · congr 1
      · rw [hkey_new, hval_new]
      · refine List.map_congr_left ?_
        intro i hi
        obtain ⟨idx, hidx⟩ := mem_drop_pos hi
        have hilt := hposlt (j + idx + 1) i hidx
        rw [hkey_old i hilt, hval_old i hilt]

/-- The in-place value overwrite is `absUpsert` on the abstraction. -/
theorem overwrite_absUpsert {s : SkipList} {c : List Nat} (inv : SLInv s c) {nid : Nat}
    (hnid : nid ∈ c) {k : String} (hkey : sKey s nid = k) (v : List Byte) :
    (c.map fun i => (sKey s i, if i = nid then v else sVal s i)) =
      absUpsert (absMap s c) k v := by
  obtain ⟨c1, c2, rfl⟩ := List.append_of_mem hnid
  have hnd : (c1 ++ nid :: c2).Nodup := (List.nodup_cons.mp inv.chainNodup).2
  have hnid1 : nid ∉ c1 := fun h =>
    (List.nodup_append.mp hnd).2.2 h (List.mem_cons_self _ _)
  have hnid2 : nid ∉ c2 :=
    (List.nodup_cons.mp (List.nodup_append.mp hnd).2.1).1
  have hlt1 : ∀ e ∈ c1.map (fun i => (sKey s i, sVal s i)), strLt e.1 k = true := by
    intro e he
    obtain ⟨i, hi, rfl⟩ := List.mem_map.mp he
    have h := (List.pairwise_append.mp inv.sorted).2.2 i hi nid (List.mem_cons_self _ _)
    rw [hkey] at h
    exact h
  have hR : absUpsert (absMap s (c1 ++ nid :: c2)) k v =
      c1.map (fun i => (sKey s i, sVal s i)) ++ (k, v) ::
        c2.map fun i => (sKey s i, sVal s i) := by
    unfold absMap
    rw [List.map_append, List.map_cons, hkey]
    exact absUpsert_overwrite hlt1
  rw [hR, List.map_append, List.map_cons]
  congr 1
  · exact List.map_congr_left fun i hi => by
      rw [if_neg (show i ≠ nid from fun h => hnid1 (h ▸ hi))]
  · congr 1
    · rw [if_pos rfl, hkey]
    · exact List.map_congr_left fun i hi => by
        rw [if_neg (show i ≠ nid from fun h => hnid2 (h ▸ hi))]

/-- `insertNewNode` with correct anchors for an absent key preserves the
invariant (on some chain) and applies `absUpsert` to the abstraction, in both
the grow and the no-grow case. -/
theorem insertNewNode_spec {s : SkipList} {c : List Nat} (inv : SLInv s c)
    {k : String} {v : List Byte} (hk : k ≠ "") {anchors0 : List (Option Nat)}
    (hlen : anchors0.length = s.height) {b0 j : Nat}
    (h0 : anchors0.get? 0 = some (some b0))
    (hj : (0 :: c).get? j = some b0)
    (hOK : ∀ l b, anchors0.get? l = some (some b) → anchorAt s c k l b)
    (rlvl : Nat) :
    ∃ c2, SLInv (s.insertNewNode k v anchors0 rlvl) c2 ∧
      absMap (s.insertNewNode k v anchors0 rlvl) c2 = absUpsert (absMap s c) k v := by
  have hh0 : 0 < anchors0.length := by
    have := inv.heightPos
    omega
  by_cases hgrow : s.height ≤ rlvl
  · have hrw : s.insertNewNode k v anchors0 rlvl =
        ⟨(spliceGo (s.height + 1) s.nodes.length 0 (anchors0 ++ [some 0, some 0])
            s.nodes ⟨k, v, []⟩).1 ++
          [(spliceGo (s.height + 1) s.nodes.length 0 (anchors0 ++ [some 0, some 0])
            s.nodes ⟨k, v, []⟩).2],
          s.height + 1 + 1, s.size + 1⟩ := by
      simp [SkipList.insertNewNode, hgrow]
    have hA0e : (anchors0 ++ [some 0, some 0]).get? 0 = some (some b0) := by
      rw [List.get?_append hh0]
      exact h0
    have hHead : ∀ l, s.height ≤ l → anchorAt s c k l 0 := by
      intro l hle
      refine ⟨⟨0, rfl⟩, ?_, Or.inl (inv.fwdHeight 0 0 l rfl hle)⟩
      rw [inv.headKey]
      exact strLt_empty hk
    have hAOKe : ∀ l b, (anchors0 ++ [some 0, some 0]).get? l = some (some b) →
        anchorAt s c k l b := by
      intro l b hl
      by_cases hlt : l < anchors0.length
      · rw [List.get?_append hlt] at hl
        exact hOK l b hl
      · rw [List.get?_append_right (le_of_not_lt hlt)] at hl
        have hsl : s.height ≤ l := by omega
        cases hd : l - anchors0.length with
        | zero =>
          rw [hd] at hl
          obtain rfl : (0 : Nat) = b := Option.some_inj.mp (Option.some_inj.mp hl)
          exact hHead l hsl
        | succ d =>
          cases d with
          | zero =>
            rw [hd] at hl
            obtain rfl : (0 : Nat) = b := Option.some_inj.mp (Option.some_inj.mp hl)
            exact hHead l hsl
          | succ d2 =>
            rw [hd] at hl
            exact Option.noConfusion hl
    rw [hrw]
    obtain ⟨h1, h2⟩ := splice_insert_spec inv hk (s.height + 1) (s.height + 1 + 1)
      (anchors0 ++ [some 0, some 0]) hA0e hj hAOKe (by omega) (by omega)
    exact ⟨_, h1, h2⟩
  · have hrw : s.insertNewNode k v anchors0 rlvl =
        ⟨(spliceGo rlvl s.nodes.length 0 anchors0 s.nodes ⟨k, v, []⟩).1 ++
          [(spliceGo rlvl s.nodes.length 0 anchors0 s.nodes ⟨k, v, []⟩).2],
          s.height, s.size + 1⟩ := by
      simp [SkipList.insertNewNode, hgrow]
    rw [hrw]
    obtain ⟨h1, h2⟩ := splice_insert_spec inv hk rlvl s.height anchors0 h0 hj hOK
      le_rfl (by omega)
    exact ⟨_, h1, h2⟩

/-- Loop correctness of `upsert`: from a reachable state the traversal
terminates within the provided fuel, maintains correct anchors, and the
resulting skip list refines `absUpsert` — overwriting in place when the key
is found and splicing a fresh node otherwise. -/
theorem upsertLoop_correct {s : SkipList} {c : List Nat} (inv : SLInv s c)
    {k : String} (hk : k ≠ "") (v : List Byte) (rlvl : Nat) :
    ∀ fuel curLevel j a anchors,
      (0 :: c).get? j = some a →
      strLt (sKey s a) k = true →
      curLevel + 1 + ((0 :: c).length - j) ≤ fuel →
      anchors.length = s.height →
      curLevel < s.height →
      (∀ l b, anchors.get? l = some (some b) → anchorAt s c k l b) →
      ∃ s2 c2, s.upsertLoop k v rlvl fuel curLevel a anchors = some s2 ∧
        SLInv s2 c2 ∧ absMap s2 c2 = absUpsert (absMap s c) k v := by
  intro fuel
  induction fuel with
  | zero =>
    intro curLevel j a anchors hj _ hf _ _ _
    have := (List.get?_eq_some.mp hj).1
    omega
  | succ fuel ih =>
    intro curLevel j a anchors hj hka hf halen hch hAOK
    have hjlen : j < (0 :: c).length := (List.get?_eq_some.mp hj).1
    cases hfwd : (s.node a).getFwd curLevel with
    | none =>
      simp only [SkipList.upsertLoop, hfwd]
      have hset0 : (anchors.set curLevel (some a)).get? curLevel = some (some a) :=
        get?_set_self _ _ _ (by omega)
      have hsetlen : (anchors.set curLevel (some a)).length = s.height := by
        rw [List.length_set]
        exact halen
      have hAOK2 : ∀ l b, (anchors.set curLevel (some a)).get? l = some (some b) →
          anchorAt s c k l b := by
        intro l b hl
        by_cases hcl : curLevel = l
        · subst hcl
          rw [hset0] at hl
          obtain rfl : a = b := Option.some_inj.mp (Option.some_inj.mp hl)
          exact ⟨⟨j, hj⟩, hka, Or.inl hfwd⟩
        · rw [get?_set_other _ _ _ _ hcl] at hl
          exact hAOK l b hl
      by_cases hcl0 : curLevel = 0
      · subst hcl0
        rw [if_pos rfl]
        obtain ⟨c2, hinv2, habs2⟩ := insertNewNode_spec inv hk hsetlen hset0 hj hAOK2 rlvl
        exact ⟨_, c2, rfl, hinv2, habs2⟩
      · rw [if_neg hcl0]
        exact ih (curLevel - 1) j a _ hj hka (by omega) hsetlen (by omega) hAOK2
    | some nid =>
      simp only [SkipList.upsertLoop, hfwd]
      obtain ⟨jt, hjtlt, hjt⟩ := inv.edges j a curLevel nid hj hfwd
      have hjtlen : jt < (0 :: c).length := (List.get?_eq_some.mp hjt).1
      cases hle : strLe k (s.node nid).key with
      | true =>
        rw [if_pos rfl]
        by_cases heq : (s.node nid).key = k
        · rw [if_pos heq]
          have hnidc : nid ∈ c := by
            obtain ⟨jtp, rfl⟩ : ∃ jtp, jt = jtp + 1 := ⟨jt - 1, by omega⟩
            exact List.get?_mem hjt
          refine ⟨_, c, rfl, overwrite_inv inv hnidc v, ?_⟩
          rw [overwrite_abs inv hnidc v]
          exact overwrite_absUpsert inv hnidc heq v
        · rw [if_neg heq]
          have hklt : strLt k (s.node nid).key = true := strLt_of_le_of_ne hle heq
          have hset0 : (anchors.set curLevel (some a)).get? curLevel = some (some a) :=
            get?_set_self _ _ _ (by omega)
          have hsetlen : (anchors.set curLevel (some a)).length = s.height := by
            rw [List.length_set]
            exact halen
          have hAOK2 : ∀ l b, (anchors.set curLevel (some a)).get? l = some (some b) →
              anchorAt s c k l b := by
            intro l b hl
            by_cases hcl : curLevel = l
            · subst hcl
              rw [hset0] at hl
              obtain rfl : a = b := Option.some_inj.mp (Option.some_inj.mp hl)
              exact ⟨⟨j, hj⟩, hka, Or.inr ⟨nid, hfwd, hklt⟩⟩
            · rw [get?_set_other _ _ _ _ hcl] at hl
              exact hAOK l b hl
          by_cases hcl0 : curLevel = 0
          · subst hcl0
            rw [if_pos rfl]
            obtain ⟨c2, hinv2, habs2⟩ :=
              insertNewNode_spec inv hk hsetlen hset0 hj hAOK2 rlvl
            exact ⟨_, c2, rfl, hinv2, habs2⟩
          · rw [if_neg hcl0]
            exact ih (curLevel - 1) j a _ hj hka (by omega) hsetlen (by omega) hAOK2
      | false =>
        rw [if_neg (by simp)]
        have hmv : strLt (sKey s nid) k = true := not_strLe.mp hle
        exact ih curLevel jt nid anchors hjt hmv (by omega) halen hch hAOK

/-- `upsert` from a reachable state: the invariant is preserved on some chain
and the abstraction evolves by `absUpsert`. -/
theorem upsert_spec {s : SkipList} {c : List Nat} (inv : SLInv s c) {k : String}
    (hk : k ≠ "") (v : List Byte) (rlvl : Nat) :
    ∃ c2, SLInv (s.upsert k v rlvl) c2 ∧
      absMap (s.upsert k v rlvl) c2 = absUpsert (absMap s c) k v := by
  obtain ⟨s2, c2, hloop, hinv2, habs2⟩ :=
    upsertLoop_correct inv hk v rlvl s.searchFuel (s.height - 1) 0 0
      (List.replicate s.height none) rfl
      (by rw [inv.headKey]; exact strLt_empty hk)
      (by
        unfold SkipList.searchFuel
        have h1 := inv.chainLen
        have h2 := inv.heightPos
        simp only [List.length_cons]
        omega)
      (List.length_replicate _ _)
      (by have := inv.heightPos; omega)
      (by
        intro l b hl
        rw [List.get?_eq_getElem?, List.getElem?_replicate] at hl
        by_cases h : l < s.height
        · rw [if_pos h] at hl
          exact Option.noConfusion (Option.some_inj.mp hl)
        · rw [if_neg h] at hl
          exact Option.noConfusion hl)
  unfold SkipList.upsert
  rw [hloop]
  exact ⟨c2, hinv2, habs2⟩

/-! ### Memtable- and database-level consequences -/

theorem absLookup_absMap (s : SkipList) (c : List Nat) (k : String) :
    absLookup (absMap s c) k =
      (c.find? fun i => sKey s i = k).map fun i => sVal s i := by
  induction c with
  | nil => rfl
  | cons e rest ih =>
    show absLookup ((sKey s e, sVal s e) :: absMap s rest) k = _
    rw [absLookup_cons]
    by_cases h : sKey s e = k
    · rw [if_pos h]
      simp [List.find?, h]
    · rw [if_neg h]
      simp only [List.find?, decide_eq_false h]
      exact ih

/-- A reachable memtable's `Get` is lookup in the abstract map. -/
theorem memGet_eq_absLookup {m : SkipListMemTable} {c : List Nat} (inv : SLInv m.s c)
    {k : String} (hk : k ≠ "") : m.Get k = absLookup (absMap m.s c) k := by
  unfold SkipListMemTable.Get
  rw [search_correct inv hk, absLookup_absMap]
  rfl

/-- On a quota-free file every WAL append succeeds and keeps the file
quota-free. -/
theorem append_quota_none (wal : BasicWal) (log : List Byte)
    (h : wal.file.quota = none) :
    (wal.append log).2 = none ∧ (wal.append log).1.file.quota = none := by
  constructor <;> simp [BasicWal.append, writeDataWithVarintSize, WFile.write, h]

/-- On a quota-free WAL file a memtable write succeeds, upserts the skip
list, and keeps the file quota-free. -/
theorem memtable_write_quota_none (m : SkipListMemTable) (k : String) (v : List Byte)
    (rlvl : Nat) (h : m.wal.file.quota = none) :
    (m.Write k v rlvl).2 = none ∧
    (m.Write k v rlvl).1.s = m.s.upsert k v rlvl ∧
    (m.Write k v rlvl).1.wal.file.quota = none := by
  obtain ⟨h1, h2⟩ := append_quota_none m.wal (marshalMemtableKeyValue k v) h
  refine ⟨?_, ?_, ?_⟩ <;> simp [SkipListMemTable.Write, h1, h2]

/-- A memtable write leaves the skip list unchanged (WAL failure) or upserts
it. -/
theorem memtable_write_s (m : SkipListMemTable) (k : String) (v : List Byte)
    (rlvl : Nat) :
    (m.Write k v rlvl).1.s = m.s ∨ (m.Write k v rlvl).1.s = m.s.upsert k v rlvl := by
  cases ha : (m.wal.append (marshalMemtableKeyValue k v)).2 with
  | some e =>
    left
    simp [SkipListMemTable.Write, ha]
  | none =>
    right
    simp [SkipListMemTable.Write, ha]

/-- Any sequence of writes with non-empty keys keeps the memtable's skip
list in a reachable (invariant-satisfying) state. -/
theorem memWriteAll_inv : ∀ (ws : List (String × List Byte × Nat))
    (m : SkipListMemTable) (c : List Nat),
    (∀ w ∈ ws, w.1 ≠ "") → SLInv m.s c →
    ∃ c2, SLInv (memWriteAll m ws).s c2 := by
  intro ws
  induction ws with
  | nil =>
    intro m c _ inv
    exact ⟨c, inv⟩
  | cons w rest ih =>
    intro m c hkeys inv
    show ∃ c2, SLInv (memWriteAll (m.Write w.1 w.2.1 w.2.2).1 rest).s c2
    rcases memtable_write_s m w.1 w.2.1 w.2.2 with hs | hs
    · exact ih _ c (fun w2 hw2 => hkeys w2 (List.mem_cons_of_mem _ hw2))
        (by rw [hs]; exact inv)
    · obtain ⟨c2, hinv2, _⟩ :=
        upsert_spec inv (hkeys w (List.mem_cons_self _ _)) w.2.1 w.2.2
      exact ih _ c2 (fun w2 hw2 => hkeys w2 (List.mem_cons_of_mem _ hw2))
        (by rw [hs]; exact hinv2)

/-- One `Database.Write` on a quota-free current WAL file: it succeeds,
preserves the directory state, and either upserts the current memtable in
place (no flush) or installs a fresh memtable and queues the full one. -/
theorem db_write_quota_none (db : Database) (k : String) (v : List Byte) (rlvl : Nat)
    (h : db.curMem.wal.file.quota = none) :
    (db.write k v rlvl).2 = none ∧
    (db.write k v rlvl).1.curMem.wal.file.quota = none ∧
    (db.write k v rlvl).1.setting = db.setting ∧
    (db.write k v rlvl).1.memtablesToCompact = db.memtablesToCompact ∧
    (db.write k v rlvl).1.sstables = db.sstables ∧
    (((db.write k v rlvl).1.curMem.s = db.curMem.s.upsert k v rlvl ∧
        (db.write k v rlvl).1.compactionChan = db.compactionChan) ∨
      ((db.write k v rlvl).1.curMem = newBasicMemTable ∧
        (db.write k v rlvl).1.compactionChan =
          db.compactionChan ++ [(db.curMem.Write k v rlvl).1])) := by
  obtain ⟨h1, h2, h3⟩ := memtable_write_quota_none db.curMem k v rlvl h
  by_cases hsz : db.setting.memtableSizeByte % 4294967296 ≤
      (db.curMem.Write k v rlvl).1.SizeBytes
  · refine ⟨?_, ?_, ?_, ?_, ?_, Or.inr ⟨?_, ?_⟩⟩ <;>
      simp [Database.write, h1, hsz, newBasicMemTable, newBasicWal, freshWalFile]
  · refine ⟨?_, ?_, ?_, ?_, ?_, Or.inl ⟨?_, ?_⟩⟩ <;>
      simp [Database.write, h1, hsz, h2, h3]

/-- The compaction channel only ever grows across writes. -/
theorem dbWriteAll_chan_suffix : ∀ (ws : List (String × List Byte × Nat)) (db : Database),
    ∃ l, (dbWriteAll db ws).compactionChan = db.compactionChan ++ l := by
  intro ws
  induction ws with
  | nil =>
    intro db
    refine ⟨[], ?_⟩
    show db.compactionChan = db.compactionChan ++ []
    simp
  | cons w rest ih =>
    intro db
    obtain ⟨l, hl⟩ := ih (db.write w.1 w.2.1 w.2.2).1
    have hstep : ∃ l2, (db.write w.1 w.2.1 w.2.2).1.compactionChan =
        db.compactionChan ++ l2 := by
      cases hw2 : (db.curMem.Write w.1 w.2.1 w.2.2).2 with
      | some e => exact ⟨[], by simp [Database.write, hw2]⟩
      | none =>
        by_cases hsz : db.setting.memtableSizeByte % 4294967296 ≤
            (db.curMem.Write w.1 w.2.1 w.2.2).1.SizeBytes
        · exact ⟨[(db.curMem.Write w.1 w.2.1 w.2.2).1],
            by simp [Database.write, hw2, hsz]⟩
        · exact ⟨[], by simp [Database.write, hw2, hsz]⟩
    obtain ⟨l2, hl2⟩ := hstep
    refine ⟨l2 ++ l, ?_⟩
    show (dbWriteAll (db.write w.1 w.2.1 w.2.2).1 rest).compactionChan = _
    rw [hl, hl2, List.append_assoc]

/-- From a fresh database, any sequence of writes with non-empty keys keeps
the current memtable reachable and its WAL file quota-free. -/
theorem dbWriteAll_quota_inv : ∀ (ws : List (String × List Byte × Nat)) (db : Database)
    (c : List Nat), (∀ w ∈ ws, w.1 ≠ "") →
    db.curMem.wal.file.quota = none → SLInv db.curMem.s c →
    (dbWriteAll db ws).curMem.wal.file.quota = none ∧
    ∃ c2, SLInv (dbWriteAll db ws).curMem.s c2 := by
  intro ws
  induction ws with
  | nil =>
    intro db c _ hq inv
    exact ⟨hq, c, inv⟩
  | cons w rest ih =>
    intro db c hkeys hq inv
    obtain ⟨_, h2, _, _, _, hcase⟩ := db_write_quota_none db w.1 w.2.1 w.2.2 hq
    show (dbWriteAll (db.write w.1 w.2.1 w.2.2).1 rest).curMem.wal.file.quota = none ∧ _
    rcases hcase with ⟨hs, _⟩ | ⟨hm, _⟩
    · obtain ⟨c2, hinv2, _⟩ :=
        upsert_spec inv (hkeys w (List.mem_cons_self _ _)) w.2.1 w.2.2
      exact ih _ c2 (fun w2 hw2 => hkeys w2 (List.mem_cons_of_mem _ hw2)) h2
        (by rw [hs]; exact hinv2)
    · refine ih _ [] (fun w2 hw2 => hkeys w2 (List.mem_cons_of_mem _ hw2)) h2 ?_
      rw [hm]
      exact slinv_new

/-- When no flush happens across the whole sequence (the compaction channel
never grows), the current memtable's abstract map accumulates every write via
`absUpsert`. -/
theorem dbWriteAll_abs : ∀ (ws : List (String × List Byte × Nat)) (db : Database)
    (c : List Nat) (m0 : List (String × List Byte)),
    (∀ w ∈ ws, w.1 ≠ "") →
    db.curMem.wal.file.quota = none →
    SLInv db.curMem.s c →
    absMap db.curMem.s c = m0 →
    (dbWriteAll db ws).compactionChan = db.compactionChan →
    ∃ c2, SLInv (dbWriteAll db ws).curMem.s c2 ∧
      absMap (dbWriteAll db ws).curMem.s c2 =
        ws.foldl (fun mm w => absUpsert mm w.1 w.2.1) m0 := by
  intro ws
  induction ws with
  | nil =>
    intro db c m0 _ _ inv habs _
    exact ⟨c, inv, habs⟩
  | cons w rest ih =>
    intro db c m0 hkeys hq inv habs hchan
    obtain ⟨_, h2, _, _, _, hcase⟩ := db_write_quota_none db w.1 w.2.1 w.2.2 hq
    rcases hcase with ⟨hs, hch1⟩ | ⟨_, hch1⟩
    · obtain ⟨c2, hinv2, habs2⟩ :=
        upsert_spec inv (hkeys w (List.mem_cons_self _ _)) w.2.1 w.2.2
      refine ih _ c2 (absUpsert m0 w.1 w.2.1)
        (fun w2 hw2 => hkeys w2 (List.mem_cons_of_mem _ hw2)) h2
        (by rw [hs]; exact hinv2) (by rw [hs, habs2, habs]) ?_
      show (dbWriteAll (db.write w.1 w.2.1 w.2.2).1 rest).compactionChan = _
      rw [hch1]
      exact hchan
    · exfalso
      obtain ⟨l, hl⟩ := dbWriteAll_chan_suffix rest (db.write w.1 w.2.1 w.2.2).1
      have hchan2 : (dbWriteAll (db.write w.1 w.2.1 w.2.2).1 rest).compactionChan =
          db.compactionChan := hchan
      rw [hl, hch1, List.append_assoc] at hchan2
      have hlen := congrArg List.length hchan2
      rw [List.length_append] at hlen
      simp at hlen

/-! ## Claim theorems -/

/-- C3: `WAL.Append` is atomic with respect to failure.  For every WAL state
and payload, if the underlying length-prefixed write fails (including a
partial write), then: when truncation works the file contents are restored
to exactly the pre-append contents, the sequence number is unchanged and the
returned error is a WAL error of kind `APPEND` carrying the pre-append
`seq`; when the truncation itself fails, a WAL error of kind `ROLLBACK` is
returned instead (and `seq` is still unchanged). -/
theorem wal_append_atomic_rollback (wal : BasicWal) (log : List Byte)
    (hfail : (writeDataWithVarintSize wal.file
      (marshalWalLog ((wal.seq + 1) % 2 ^ 32) log)).2.2 = true) :
    (wal.file.truncateFails = false →
      (wal.append log).1.file.contents = wal.file.contents ∧
      (wal.append log).1.seq = wal.seq ∧
      (wal.append log).2 = some ⟨.APPEND, wal.seq⟩) ∧
    (wal.file.truncateFails = true →
      (wal.append log).1.seq = wal.seq ∧
      (wal.append log).2 = some ⟨.ROLLBACK, wal.seq⟩) := by
  obtain ⟨⟨q, hq⟩, ht⟩ := writeDataWithVarintSize_spec wal.file
    (marshalWalLog ((wal.seq + 1) % 2 ^ 32) log)
  norm_num at hfail ht hq
  constructor
  · intro htf
    rw [htf] at ht
    refine ⟨?_, ?_, ?_⟩ <;>
      simp [BasicWal.append, BasicWal.rollback, WFile.truncate, WFile.size, hfail, ht, hq,
        List.take_left]
  · intro htf
    rw [htf] at ht
    refine ⟨?_, ?_⟩ <;>
      simp [BasicWal.append, BasicWal.rollback, WFile.truncate, WFile.size, hfail, ht]

/-- Witness for C3 at a concrete input: a WAL whose device accepts 2 more
bytes, an append whose record needs more; both the healthy-truncate and the
failing-truncate variants are exercised through the theorem. -/
theorem wal_append_atomic_rollback_witness :
    ((writeDataWithVarintSize (⟨[1, 2, 3], some 2, false⟩ : WFile)
        (marshalWalLog ((5 + 1) % 2 ^ 32) [7])).2.2 = true ∧
      ((⟨⟨[1, 2, 3], some 2, false⟩, 5⟩ : BasicWal).append [7]).1.file.contents = [1, 2, 3] ∧
      ((⟨⟨[1, 2, 3], some 2, false⟩, 5⟩ : BasicWal).append [7]).1.seq = 5 ∧
      ((⟨⟨[1, 2, 3], some 2, false⟩, 5⟩ : BasicWal).append [7]).2 = some ⟨.APPEND, 5⟩) ∧
    ((writeDataWithVarintSize (⟨[1, 2, 3], some 2, true⟩ : WFile)
        (marshalWalLog ((5 + 1) % 2 ^ 32) [7])).2.2 = true ∧
      ((⟨⟨[1, 2, 3], some 2, true⟩, 5⟩ : BasicWal).append [7]).2 = some ⟨.ROLLBACK, 5⟩) := by
  refine ⟨⟨by decide, ?_⟩, ⟨by decide, ?_⟩⟩
  · exact (wal_append_atomic_rollback ⟨⟨[1, 2, 3], some 2, false⟩, 5⟩ [7] (by decide)).1 rfl
  · exact ((wal_append_atomic_rollback ⟨⟨[1, 2, 3], some 2, true⟩, 5⟩ [7] (by decide)).2 rfl).2

/-- C5: the WAL sequence number starts at 0; every successful `Append`
increments it by exactly 1 (`seq` is a `uint32`, hence the no-overflow
hypothesis on this conjunct) and stamps the appended record, which goes to
the file as `varint(len) || serialize{seq+1, data}`; in particular on a
fresh WAL the first append leaves exactly the length-prefixed serialization
of `{seq: 1, data: payload}` in the file and the internal `seq` is 1. -/
theorem wal_seq_progression (f : WFile) (wal : BasicWal) (d : List Byte)
    (hq : wal.file.quota = none) (hlt : wal.seq + 1 < 2 ^ 32) :
    (newBasicWal f).seq = 0 ∧
    (wal.append d).2 = none ∧
    (wal.append d).1.seq = wal.seq + 1 ∧
    (wal.append d).1.file.contents = wal.file.contents ++
      (putUvarint (marshalWalLog (wal.seq + 1) d).length ++ marshalWalLog (wal.seq + 1) d) ∧
    ((newBasicWal freshWalFile).append d).2 = none ∧
    ((newBasicWal freshWalFile).append d).1.seq = 1 ∧
    ((newBasicWal freshWalFile).append d).1.file.contents =
      putUvarint (marshalWalLog 1 d).length ++ marshalWalLog 1 d := by
  have hmod : (wal.seq + 1) % 2 ^ 32 = wal.seq + 1 := Nat.mod_eq_of_lt hlt
  have hgen : ∀ (w : BasicWal), w.file.quota = none →
      (w.append d).2 = none ∧
      (w.append d).1.seq = (w.seq + 1) % 2 ^ 32 ∧
      (w.append d).1.file.contents = w.file.contents ++
        (putUvarint (marshalWalLog ((w.seq + 1) % 2 ^ 32) d).length ++
          marshalWalLog ((w.seq + 1) % 2 ^ 32) d) := by
    intro w hw
    refine ⟨?_, ?_, ?_⟩ <;>
      simp [BasicWal.append, writeDataWithVarintSize, WFile.write, hw, List.append_assoc]
  obtain ⟨h1, h2, h3⟩ := hgen wal hq
  obtain ⟨h4, h5, h6⟩ := hgen (newBasicWal freshWalFile) rfl
  rw [hmod] at h2 h3
  refine ⟨rfl, h1, h2, h3, h4, by simpa using h5, by simpa using h6⟩

/-- Witness for C5 at a concrete input. -/
theorem wal_seq_progression_witness :
    ((⟨freshWalFile, 41⟩ : BasicWal).file.quota = none ∧ 41 + 1 < 2 ^ 32) ∧
    ((⟨freshWalFile, 41⟩ : BasicWal).append [9]).1.seq = 41 + 1 ∧
    ((newBasicWal freshWalFile).append [9]).1.file.contents =
      putUvarint (marshalWalLog 1 [9]).length ++ marshalWalLog 1 [9] :=
  ⟨⟨rfl, by norm_num⟩,
    (wal_seq_progression freshWalFile ⟨freshWalFile, 41⟩ [9] rfl (by norm_num)).2.2.1,
    (wal_seq_progression freshWalFile ⟨freshWalFile, 41⟩ [9] rfl
      (by norm_num)).2.2.2.2.2.2⟩

/-- C7 (the code, evaluated at the failing input): in the fresh skip list of
height 1, upserting a new key whose drawn level `L = 1` satisfies
`L ≥ height` makes the height 3 — `insertNewNode` sets `lvl = height+1` and
then `height = lvl+1`, growing by TWO levels, not the one level the claim
(and the code's own "grow one level at a time" comment) describe. -/
theorem skiplist_insert_grows_height_by_two :
    newSkipList.height = 1 ∧
    (newSkipList.upsert "a" [0] 1).height = 3 ∧
    (newSkipList.upsert "a" [0] 1).node 0 = ⟨"", [], [some 1, some 1, some 1]⟩ := by
  exact ⟨rfl, rfl, by decide⟩

/-- C4 (the code, evaluated at the failing input): dump the one-record
memtable `{"a" ↦ [118]}` with block size 1; the reader construction from the
file bytes succeeds (the index round-trips), but `Get("a")` returns a
`LOAD_DATABLOCK` error instead of `[118]`: `BasicSSTable.Get` hands the
size-byte block window to `ReadDataWithVarintPrefix` as its own reuse
buffer, so the varint-stripped result keeps `prefix`-many stale trailing
bytes, which the strict snappy decoder rejects. -/
theorem sstable_roundtrip_get_fails :
    (newBasicMemTable.Write "a" [118] 0).1.GetAll = [("a", [118])] ∧
    (newBasicSSTableReader
      (sstableDump 1 (newBasicMemTable.Write "a" [118] 0).1.GetAll)).toOption.isSome = true ∧
    ((newBasicSSTableReader
        (sstableDump 1 (newBasicMemTable.Write "a" [118] 0).1.GetAll)).bind
      fun r => r.get "a") = .error ⟨.LOAD_DATABLOCK⟩ := by
  exact ⟨by decide, by decide, by decide⟩

/-- C8 counterexample: the claim says `read_length_prefixed` errors whenever
the source ends mid-payload and returns exactly the `n` bytes following the
prefix.  On the source `[5]` (varint length 5, no payload at all) it
returns SUCCESS with five zero bytes, and with an oversized reuse buffer
`[9,9,9]` on source `[1, 42]` it returns all three bytes `[42, 9, 9]`
instead of the one byte read. -/
theorem read_varint_data_truncated_counterexample :
    readDataWithVarint [5] none = .ok ([0, 0, 0, 0, 0], []) ∧
    readDataWithVarint [1, 42] (some [9, 9, 9]) = .ok ([42, 9, 9], []) := by
  exact ⟨by decide, by decide⟩

/-- C8 amended: `ReadDataWithVarintPrefix` decodes a varint length `n` and
fails when the source ends mid-length; when the decoded length is covered by
the remaining source and the reuse buffer is absent (or too small, which
allocates), it returns exactly the `n` bytes that followed the prefix; but
the single `Read`'s result is ignored, so when the payload is truncated it
returns success with the `n`-byte buffer zero-padded, and a reuse buffer
larger than `n` is returned whole, stale tail included. -/
theorem read_varint_data_amended (src : List Byte) :
    (∀ e, readUvarint src = .error e → ∀ reuse, readDataWithVarint src reuse = .error e) ∧
    (∀ l rest, readUvarint src = .ok (l, rest) →
      (l ≤ rest.length → readDataWithVarint src none = .ok (rest.take l, rest.drop l)) ∧
      (rest.length < l →
        readDataWithVarint src none =
          .ok (rest ++ List.replicate (l - rest.length) 0, [])) ∧
      (∀ b, l ≤ b.length →
        readDataWithVarint src (some b) =
          .ok (rest.take (min b.length rest.length) ++ b.drop (min b.length rest.length),
            rest.drop (min b.length rest.length)))) := by
  constructor
  · intro e he reuse
    unfold readDataWithVarint
    rw [he]
  · intro l rest hok
    unfold readDataWithVarint
    rw [hok]
    refine ⟨fun hle => ?_, fun hlt => ?_, fun b hb => ?_⟩
    · have h1 : min (List.replicate l (0 : Byte)).length rest.length = l := by
        simp [List.length_replicate, Nat.min_eq_left hle]
      simp only [h1]
      have h2 : (List.replicate l (0 : Byte)).drop l = [] := by
        simp [List.drop_replicate]
      rw [h2, List.append_nil]
    · have h2 : l ⊓ rest.length = rest.length := Nat.min_eq_right (Nat.le_of_lt hlt)
      simp [h2, List.drop_replicate, Nat.le_of_lt hlt]
    · have h1 : ¬ b.length < l := Nat.not_lt.mpr hb
      simp only [h1, if_neg, not_false_iff]

/-- Witness for C8 amended at concrete inputs, one per conjunct. -/
theorem read_varint_data_amended_witness :
    readDataWithVarint [0x80] none = .error .eof ∧
    readDataWithVarint [2, 7, 8, 9] none = .ok ([7, 8], [9]) ∧
    readDataWithVarint [3, 7] none = .ok ([7, 0, 0], []) ∧
    readDataWithVarint [2, 7, 8, 9] (some [5, 5, 5]) = .ok ([7, 8, 9], []) := by
  refine ⟨(read_varint_data_amended [0x80]).1 .eof (by decide) none, ?_, ?_, ?_⟩
  · exact ((read_varint_data_amended [2, 7, 8, 9]).2 2 [7, 8, 9] (by decide)).1 (by decide)
  · exact ((read_varint_data_amended [3, 7]).2 3 [7] (by decide)).2.1 (by decide)
  · simpa using ((read_varint_data_amended [2, 7, 8, 9]).2 2 [7, 8, 9] (by decide)).2.2 [5, 5, 5]
      (by decide)

theorem getOffsetScan_none (key : String) (l : List IndexEntry)
    (h : ∀ en ∈ l, ¬(strLe en.startKey key = true ∧ strLe key en.endKey = true)) :
    getOffsetScan key l = none := by
  induction l with
  | nil => rfl
  | cons en rest ih =>
    have hc : (strLe en.startKey key && strLe key en.endKey) = false := by
      cases h1 : strLe en.startKey key <;> cases h2 : strLe key en.endKey <;>
        first
          | rfl
          | exact absurd ⟨h1, h2⟩ (h en (by simp))
    rw [getOffsetScan, hc]
    simp only [Bool.false_eq_true, if_false]
    by_cases h2 : strLe key en.startKey = true
    · rw [if_pos h2]
    · rw [if_neg h2]
      exact ih fun e he => h e (by simp [he])

theorem getOffsetScan_hit (key : String) (l : List IndexEntry) (en : IndexEntry)
    (hmem : en ∈ l) (h1 : strLe en.startKey key = true) (h2 : strLe key en.endKey = true)
    (hwf : ∀ e ∈ l, strLe e.startKey e.endKey = true)
    (hpw : l.Pairwise fun a b => strLt a.endKey b.startKey = true) :
    getOffsetScan key l = some (en.offset, en.size) := by
  induction l with
  | nil => exact absurd hmem (List.not_mem_nil en)
  | cons e rest ih =>
    rcases List.mem_cons.mp hmem with heq | htail
    · subst heq
      rw [getOffsetScan, h1, h2]
      rfl
    · have hlt : strLt e.endKey en.startKey = true := (List.pairwise_cons.mp hpw).1 en htail
      have hekey : strLt e.endKey key = true := strLt_of_lt_of_le hlt h1
      have hc2 : strLe key e.endKey = false := not_strLe.mpr hekey
      have hskey : strLt e.startKey key = true :=
        strLt_of_le_of_lt (hwf e (by simp)) hekey
      have hc3 : strLe key e.startKey = false := not_strLe.mpr hskey
      rw [getOffsetScan, hc2, hc3]
      simp only [Bool.and_false, Bool.false_eq_true, if_false]
      exact ih htail (fun x hx => hwf x (by simp [hx])) (List.pairwise_cons.mp hpw).2

theorem contains_unique (key : String) (l : List IndexEntry)
    (hpw : l.Pairwise fun a b => strLt a.endKey b.startKey = true) (en en2 : IndexEntry)
    (hm : en ∈ l) (hm2 : en2 ∈ l)
    (hc : strLe en.startKey key = true ∧ strLe key en.endKey = true)
    (hc2 : strLe en2.startKey key = true ∧ strLe key en2.endKey = true) : en = en2 := by
  induction l with
  | nil => exact absurd hm (List.not_mem_nil en)
  | cons e rest ih =>
    have hR : ∀ x ∈ rest, strLt e.endKey x.startKey = true := (List.pairwise_cons.mp hpw).1
    have hnot : ∀ x ∈ rest, (strLe e.startKey key = true ∧ strLe key e.endKey = true) →
        ¬(strLe x.startKey key = true ∧ strLe key x.endKey = true) := by
      rintro x hx ⟨-, hk2⟩ ⟨hx1, -⟩
      have : strLt key key = true := strLt_of_le_of_lt hk2 (strLt_of_lt_of_le (hR x hx) hx1)
      rw [strLt_irrefl key] at this
      exact absurd this (by simp)
    rcases List.mem_cons.mp hm with heq | htail <;>
      rcases List.mem_cons.mp hm2 with heq2 | htail2
    · rw [heq, heq2]
    · subst heq
      exact absurd hc2 (hnot en2 htail2 hc)
    · subst heq2
      exact absurd hc (hnot en htail hc2)
    · exact ih (List.pairwise_cons.mp hpw).2 htail htail2

/-- C6: for every SSTable index whose entries have `startKey ≤ endKey` and
pairwise-ordered, non-overlapping ranges (which `update`'s documented
contract — monotonically increasing start keys fed in ascending record
order — provides): `GetOffset key` returns `(e.offset, e.size, true)` for
the entry `e` whenever `startKey e ≤ key ≤ endKey e` (in particular when
`key` equals `e`'s start or end key), and returns not-present whenever no
entry's range contains `key` — below the first entry, strictly between two
entries, or above the last entry. -/
theorem index_get_offset_spec (idx : BasicSSTableIndex)
    (hwf : ∀ en ∈ idx.entries, strLe en.startKey en.endKey = true)
    (hpw : idx.entries.Pairwise fun a b => strLt a.endKey b.startKey = true) :
    (∀ en ∈ idx.entries, ∀ key, strLe en.startKey key = true → strLe key en.endKey = true →
      idx.GetOffset key = some (en.offset, en.size)) ∧
    (∀ key, (∀ en ∈ idx.entries, ¬(strLe en.startKey key = true ∧ strLe key en.endKey = true)) →
      idx.GetOffset key = none) := by
  constructor
  · intro en hmem key h1 h2
    unfold BasicSSTableIndex.GetOffset
    cases hfind : idx.entries.find? fun en => en.startKey = key with
    | none => exact getOffsetScan_hit key idx.entries en hmem h1 h2 hwf hpw
    | some en2 =>
      have hm2 : en2 ∈ idx.entries := List.mem_of_find?_eq_some hfind
      have heq2 : en2.startKey = key := by
        have hp := List.find?_some hfind
        simpa using hp
      have hc2 : strLe en2.startKey key = true ∧ strLe key en2.endKey = true :=
        ⟨strLe_of_eq heq2, heq2 ▸ hwf en2 hm2⟩
      rw [contains_unique key idx.entries hpw en en2 hmem hm2 ⟨h1, h2⟩ hc2]
  · intro key h
    unfold BasicSSTableIndex.GetOffset
    cases hfind : idx.entries.find? fun en => en.startKey = key with
    | none => exact getOffsetScan_none key idx.entries h
    | some en2 =>
      have hm2 : en2 ∈ idx.entries := List.mem_of_find?_eq_some hfind
      have heq2 : en2.startKey = key := by
        have hp := List.find?_some hfind
        simpa using hp
      exact absurd ⟨strLe_of_eq heq2, heq2 ▸ hwf en2 hm2⟩ (h en2 hm2)

/-- Witness for C6: the repository test's index shape
`[key-05,key-10], [key-15,key-20], [key-25,key-30]` at offsets 0, 10, 20:
hits at a start key, an end key and an interior key; misses below the
first block, between two blocks and above the last block. -/
theorem index_get_offset_spec_witness :
    (BasicSSTableIndex.GetOffset ⟨[⟨"key-05", "key-10", 0, 100⟩,
      ⟨"key-15", "key-20", 10, 100⟩, ⟨"key-25", "key-30", 20, 100⟩]⟩ "key-05" =
        some (0, 100)) ∧
    (BasicSSTableIndex.GetOffset ⟨[⟨"key-05", "key-10", 0, 100⟩,
      ⟨"key-15", "key-20", 10, 100⟩, ⟨"key-25", "key-30", 20, 100⟩]⟩ "key-20" =
        some (10, 100)) ∧
    (BasicSSTableIndex.GetOffset ⟨[⟨"key-05", "key-10", 0, 100⟩,
      ⟨"key-15", "key-20", 10, 100⟩, ⟨"key-25", "key-30", 20, 100⟩]⟩ "key-26" =
        some (20, 100)) ∧
    (BasicSSTableIndex.GetOffset ⟨[⟨"key-05", "key-10", 0, 100⟩,
      ⟨"key-15", "key-20", 10, 100⟩, ⟨"key-25", "key-30", 20, 100⟩]⟩ "key-01" = none) ∧
    (BasicSSTableIndex.GetOffset ⟨[⟨"key-05", "key-10", 0, 100⟩,
      ⟨"key-15", "key-20", 10, 100⟩, ⟨"key-25", "key-30", 20, 100⟩]⟩ "key-22" = none) ∧
    (BasicSSTableIndex.GetOffset ⟨[⟨"key-05", "key-10", 0, 100⟩,
      ⟨"key-15", "key-20", 10, 100⟩, ⟨"key-25", "key-30", 20, 100⟩]⟩ "key-99" = none) := by
  have h := index_get_offset_spec ⟨[⟨"key-05", "key-10", 0, 100⟩,
    ⟨"key-15", "key-20", 10, 100⟩, ⟨"key-25", "key-30", 20, 100⟩]⟩
    (by decide) (by decide)
  refine ⟨h.1 ⟨"key-05", "key-10", 0, 100⟩ (by decide) "key-05" (by decide) (by decide),
    h.1 ⟨"key-15", "key-20", 10, 100⟩ (by decide) "key-20" (by decide) (by decide),
    h.1 ⟨"key-25", "key-30", 20, 100⟩ (by decide) "key-26" (by decide) (by decide),
    h.2 "key-01" (by decide), h.2 "key-22" (by decide), h.2 "key-99" (by decide)⟩

/-- C9: if the WAL append inside `Memtable.Write` fails, the error is
propagated and the memtable is unchanged: the skip list is untouched and
`TotalSizeBytes` is not incremented. -/
theorem memtable_write_wal_failure_unchanged (m : SkipListMemTable) (k : String)
    (v : List Byte) (rlvl : Nat) (e : WalError)
    (h : (m.wal.append (marshalMemtableKeyValue k v)).2 = some e) :
    (m.Write k v rlvl).2 = some e ∧
    (m.Write k v rlvl).1.s = m.s ∧
    (m.Write k v rlvl).1.TotalSizeBytes = m.TotalSizeBytes := by
  refine ⟨?_, ?_, ?_⟩ <;> simp [SkipListMemTable.Write, h]

/-- Witness for C9: a memtable whose WAL device accepts no further bytes. -/
theorem memtable_write_wal_failure_unchanged_witness :
    ((⟨newSkipList, ⟨⟨[], some 0, false⟩, 0⟩, 7⟩ : SkipListMemTable).wal.append
        (marshalMemtableKeyValue "a" [1])).2 = some ⟨.APPEND, 0⟩ ∧
    ((⟨newSkipList, ⟨⟨[], some 0, false⟩, 0⟩, 7⟩ : SkipListMemTable).Write "a" [1] 0).1.s =
      newSkipList ∧
    ((⟨newSkipList, ⟨⟨[], some 0, false⟩, 0⟩, 7⟩ : SkipListMemTable).Write "a" [1]
      0).1.TotalSizeBytes = 7 :=
  ⟨by decide,
    (memtable_write_wal_failure_unchanged _ "a" [1] 0 ⟨.APPEND, 0⟩ (by decide)).2.1,
    (memtable_write_wal_failure_unchanged _ "a" [1] 0 ⟨.APPEND, 0⟩ (by decide)).2.2⟩

/-- C1 counterexample: with flush threshold 1 byte, `Write("a", [120])`
succeeds and triggers the memtable handoff; the immediately following
`Get("a")` returns `ok none` — the handed-off memtable is on the channel
but `memtablesToCompact` is never populated and no SSTable exists yet — and
even after the background compaction step completes, `Get("a")` returns a
`LOAD_DATABLOCK` error; in neither schedule does it return `[120]`. -/
theorem write_then_get_flush_counterexample :
    ((newDatabase ⟨1, 4⟩).write "a" [120] 0).2 = none ∧
    (((newDatabase ⟨1, 4⟩).write "a" [120] 0).1.get "a") = .ok none ∧
    (((newDatabase ⟨1, 4⟩).write "a" [120] 0).1.compactStep.get "a") =
      .error ⟨.LOAD_DATABLOCK⟩ ∧
    (Except.ok none : Except SSTableError (Option (List Byte))) ≠ .ok (some [120]) := by
  exact ⟨by decide, by decide, by decide, by decide⟩

/-- C2 counterexample: with flush threshold 3 bytes, write `("a", [1])` and
then `("a", [2, 3])`; both succeed, the second (the last write to `"a"`)
triggers the flush, and `Get("a")` afterwards returns `ok none` rather than
the value of the last successful write, `[2, 3]`. -/
theorem last_write_wins_flush_counterexample :
    (((newDatabase ⟨3, 4⟩).write "a" [1] 0).1.write "a" [2, 3] 0).2 = none ∧
    ((((newDatabase ⟨3, 4⟩).write "a" [1] 0).1.write "a" [2, 3] 0).1.get "a") = .ok none ∧
    (Except.ok none : Except SSTableError (Option (List Byte))) ≠ .ok (some [2, 3]) := by
  exact ⟨by decide, by decide, by decide⟩

theorem lastWrite_foldl_some : ∀ (ws : List (String × List Byte × Nat))
    (acc : Option (List Byte)) (k : String) (v : List Byte),
    ws.foldl (fun a w => if w.1 = k then some w.2.1 else a) acc = some v →
    (∃ w ∈ ws, w.1 = k) ∨ acc = some v := by
  intro ws
  induction ws with
  | nil =>
    intro acc k v h
    exact Or.inr h
  | cons w rest ih =>
    intro acc k v h
    rcases ih _ k v h with hmem | hacc
    · obtain ⟨w2, hw2, hk2⟩ := hmem
      exact Or.inl ⟨w2, List.mem_cons_of_mem w hw2, hk2⟩
    · by_cases hwk : w.1 = k
      · exact Or.inl ⟨w, List.mem_cons_self w rest, hwk⟩
      · have hacc2 : (if w.1 = k then some w.2.1 else acc) = some v := hacc
        rw [if_neg hwk] at hacc2
        exact Or.inr hacc2

theorem lastWrite_some {ws : List (String × List Byte × Nat)} {k : String}
    {v : List Byte} (h : lastWrite ws k = some v) : ∃ w ∈ ws, w.1 = k := by
  rcases lastWrite_foldl_some ws none k v h with hmem | hacc
  · exact hmem
  · exact Option.noConfusion hacc

/-- C1 (amended): from a fresh database, after any sequence of writes with
non-empty keys, a `Write(k, v)` succeeds, and — provided this write does not
hand the memtable off to the compaction channel — the immediately following
`Get(k)` returns exactly `v`.  (The unamended claim fails when the write
triggers the handoff; see the counterexample.) -/
theorem write_then_get_no_flush (st : DBSetting) (ws : List (String × List Byte × Nat))
    (hkeys : ∀ w ∈ ws, w.1 ≠ "") (k : String) (hk : k ≠ "") (v : List Byte) (rlvl : Nat)
    (hnf : ((dbWriteAll (newDatabase st) ws).write k v rlvl).1.compactionChan =
      (dbWriteAll (newDatabase st) ws).compactionChan) :
    ((dbWriteAll (newDatabase st) ws).write k v rlvl).2 = none ∧
    ((dbWriteAll (newDatabase st) ws).write k v rlvl).1.get k = .ok (some v) := by
  obtain ⟨hq, c, inv⟩ := dbWriteAll_quota_inv ws (newDatabase st) [] hkeys rfl slinv_new
  obtain ⟨h1, _, _, _, _, hcase⟩ :=
    db_write_quota_none (dbWriteAll (newDatabase st) ws) k v rlvl hq
  refine ⟨h1, ?_⟩
  rcases hcase with ⟨hs, _⟩ | ⟨_, hchan⟩
  · obtain ⟨c2, hinv2, habs2⟩ := upsert_spec inv hk v rlvl
    have hinv3 : SLInv ((dbWriteAll (newDatabase st) ws).write k v rlvl).1.curMem.s c2 := by
      rw [hs]
      exact hinv2
    have hget : ((dbWriteAll (newDatabase st) ws).write k v rlvl).1.curMem.Get k =
        some v := by
      rw [memGet_eq_absLookup hinv3 hk]
      rw [show absMap ((dbWriteAll (newDatabase st) ws).write k v rlvl).1.curMem.s c2 =
          absUpsert (absMap (dbWriteAll (newDatabase st) ws).curMem.s c) k v from by
        rw [hs]
        exact habs2]
      exact absLookup_absUpsert_self _ _ _
    simp [Database.get, hget]
  · rw [hchan] at hnf
    have hlen := congrArg List.length hnf
    rw [List.length_append] at hlen
    simp at hlen

/-- Witness for the amended C1. -/
theorem write_then_get_no_flush_witness :
    (((dbWriteAll (newDatabase ⟨1000, 10⟩) []).write "a" [1] 0).1.compactionChan =
        (dbWriteAll (newDatabase ⟨1000, 10⟩) []).compactionChan) ∧
    (((dbWriteAll (newDatabase ⟨1000, 10⟩) []).write "a" [1] 0).2 = none ∧
      ((dbWriteAll (newDatabase ⟨1000, 10⟩) []).write "a" [1] 0).1.get "a" =
        .ok (some [1])) :=
  ⟨by decide, write_then_get_no_flush ⟨1000, 10⟩ [] (by decide) "a" (by decide) [1] 0
    (by decide)⟩

/-- C2 (amended): from a fresh database, for any sequence of writes with
non-empty keys — all of which succeed — if no write handed a memtable off to
the compaction channel, then `Get(k)` returns the value of the last write
to `k`, for every key `k` that was written.  (The unamended claim fails when
a flush intervenes; see the counterexample.) -/
theorem last_write_wins_no_flush (st : DBSetting) (ws : List (String × List Byte × Nat))
    (hkeys : ∀ w ∈ ws, w.1 ≠ "") (k : String) (v : List Byte)
    (hlast : lastWrite ws k = some v)
    (hnf : (dbWriteAll (newDatabase st) ws).compactionChan = []) :
    (dbWriteAll (newDatabase st) ws).get k = .ok (some v) := by
  have hk : k ≠ "" := by
    obtain ⟨w, hw, hwk⟩ := lastWrite_some hlast
    rw [← hwk]
    exact hkeys w hw
  obtain ⟨c2, hinv2, habs2⟩ :=
    dbWriteAll_abs ws (newDatabase st) [] [] hkeys rfl slinv_new rfl hnf
  have hget : (dbWriteAll (newDatabase st) ws).curMem.Get k = some v := by
    rw [memGet_eq_absLookup hinv2 hk, habs2, absLookup_foldl ws [] none k rfl]
    exact hlast
  simp [Database.get, hget]

/-- Witness for the amended C2. -/
theorem last_write_wins_no_flush_witness :
    (∀ w ∈ ([("a", [1], 0), ("a", [2], 1)] : List (String × List Byte × Nat)),
      w.1 ≠ "") ∧
    lastWrite [("a", [1], 0), ("a", [2], 1)] "a" = some [2] ∧
    (dbWriteAll (newDatabase ⟨1000, 10⟩) [("a", [1], 0), ("a", [2], 1)]).compactionChan =
      [] ∧
    (dbWriteAll (newDatabase ⟨1000, 10⟩) [("a", [1], 0), ("a", [2], 1)]).get "a" =
      .ok (some [2]) :=
  ⟨by decide, by decide, by decide,
    last_write_wins_no_flush ⟨1000, 10⟩ [("a", [1], 0), ("a", [2], 1)] (by decide)
      "a" [2] (by decide) (by decide)⟩

/-- C10: after any sequence of writes under non-empty keys (the data model's
keys are non-empty) from a fresh memtable, `search("")` returns the sentinel
head node (id 0) rather than no result, and so `Memtable.Get("")` returns a
found result carrying the sentinel's empty byte slice, though nothing was
ever written under `""`. -/
theorem empty_key_returns_sentinel (ws : List (String × List Byte × Nat))
    (hkeys : ∀ w ∈ ws, w.1 ≠ "") :
    (memWriteAll newBasicMemTable ws).s.search "" = some 0 ∧
    (memWriteAll newBasicMemTable ws).Get "" = some ([] : List Byte) := by
  obtain ⟨c2, hinv⟩ := memWriteAll_inv ws newBasicMemTable [] hkeys slinv_new
  have hsearch : (memWriteAll newBasicMemTable ws).s.search "" = some 0 := by
    unfold SkipList.search
    have hhk : ((memWriteAll newBasicMemTable ws).s.node 0).key = "" := hinv.headKey
    rw [if_pos hhk]
  refine ⟨hsearch, ?_⟩
  unfold SkipListMemTable.Get
  rw [hsearch]
  show some ((memWriteAll newBasicMemTable ws).s.node 0).value = some []
  exact congrArg some hinv.headVal

/-- Witness for C10: one ordinary write, then the empty-key probes. -/
theorem empty_key_returns_sentinel_witness :
    (∀ w ∈ ([("a", [7], 0)] : List (String × List Byte × Nat)), w.1 ≠ "") ∧
    ((memWriteAll newBasicMemTable [("a", [7], 0)]).s.search "" = some 0 ∧
      (memWriteAll newBasicMemTable [("a", [7], 0)]).Get "" = some ([] : List Byte)) :=
  ⟨by decide, empty_key_returns_sentinel [("a", [7], 0)] (by decide)⟩

end DbEngine
